import Mathlib

/-!
Verification of the semi-global alignment engine (`src/semiglobal.rs`).

The Rust module computes an optimal semi-global alignment of a query `t`
against a reference `s` under an affine gap model with soft clipping.
This file gives a shallow embedding of that module: scores are
mathematical integers (`Int`), the four DP matrices are built row by row
exactly following the Rust fill loops, and the traceback is a
fuel-bounded loop returning `Option` (with `none` modelling the panics
of the Rust code: the out-of-bounds access when no best row is found,
and the explicit `panic!` on a `NONE` move in the `s_range`
computation).
-/

namespace SG

/-- The sentinel `NEGATIVE_INF : i32 = i32::MIN / 2 = -(2^30)`. -/
def NEGATIVE_INF : Int := -1073741824

/-- The scoring policy, mirroring `struct Scoring` (field names kept,
including the source's spelling of `gap_inititation_score`). -/
structure Scoring where
  gap_inititation_score : Int
  gap_unit_score : Int
  match_score : Int
  mismatch_score : Int
  soft_clipping_score : Int
deriving DecidableEq, Repr

/-- The move alphabet, mirroring `enum Moves` in declaration order. -/
inductive Moves where
  | MATCH
  | SUBS
  | INSERT
  | DELETE
  | PREFIX_CLIP
  | SUFFIX_CLIP
  | NONE
deriving DecidableEq, Repr

/-- The rank of a move in the Rust `derive(Ord)` declaration order. -/
def movRank : Moves → ℕ
  | Moves.MATCH => 0
  | Moves.SUBS => 1
  | Moves.INSERT => 2
  | Moves.DELETE => 3
  | Moves.PREFIX_CLIP => 4
  | Moves.SUFFIX_CLIP => 5
  | Moves.NONE => 6

/-- A DP cell: a score paired with a move, mirroring `struct Cell`. -/
structure Cell where
  score : Int
  mov : Moves
deriving DecidableEq, Repr

/-- The cell every matrix entry is allocated with:
`Cell { score: NEGATIVE_INF, mov: Moves::NONE }`. -/
def dCell : Cell := ⟨NEGATIVE_INF, Moves.NONE⟩

/-- The strict order on cells derived by Rust's `derive(Ord)` on
`Cell`: lexicographic on `(score, mov)` with moves in declaration
order. -/
def cellLt (a b : Cell) : Prop :=
  a.score < b.score ∨ (a.score = b.score ∧ movRank a.mov < movRank b.mov)

instance cellLtDec (a b : Cell) : Decidable (cellLt a b) := by
  unfold cellLt
  exact inferInstance

/-- Rust's `std::cmp::max` on cells: returns the second argument when
the two compare equal. -/
def cellMax (a b : Cell) : Cell := if cellLt b a then a else b

/-- One row of the four matrices (as materialized lists of cells,
indices `0 .. |t|`), plus this row's `clip_lengths` entry. -/
structure Row where
  Mr : List Cell
  Ir : List Cell
  Dr : List Cell
  Sr : List Cell
  clip : ℕ

/-- The `match_matrix` cell of a row at column `j`. -/
def Row.M (r : Row) (j : ℕ) : Cell := r.Mr.getD j dCell

/-- The `insert_matrix` cell of a row at column `j`. -/
def Row.I (r : Row) (j : ℕ) : Cell := r.Ir.getD j dCell

/-- The `delete_matrix` cell of a row at column `j`. -/
def Row.D (r : Row) (j : ℕ) : Cell := r.Dr.getD j dCell

/-- The `score_matrix` cell of a row at column `j`. -/
def Row.S (r : Row) (j : ℕ) : Cell := r.Sr.getD j dCell

/-- Row `0` of `delete_matrix`, exactly as initialized by the Rust
code: `D[0][j] = gap_init + gap_unit * j` for `j ≥ 1`, with move
`NONE` at `j = 1` and `DELETE` beyond. -/
def row0D (p : Scoring) (j : ℕ) : Cell :=
  if j = 0 then dCell
  else ⟨p.gap_inititation_score + p.gap_unit_score * (j : Int),
        if j = 1 then Moves.NONE else Moves.DELETE⟩

/-- Row `0` of `score_matrix`:
`S[0][j] = max(D[0][j]-as-DELETE, soft_clip-as-PREFIX_CLIP)` for
`j ≥ 1`, and the `0` cell at the origin. -/
def row0S (p : Scoring) (j : ℕ) : Cell :=
  if j = 0 then ⟨0, Moves.NONE⟩
  else
    cellMax ⟨p.gap_inititation_score + p.gap_unit_score * (j : Int), Moves.DELETE⟩
            ⟨p.soft_clipping_score, Moves.PREFIX_CLIP⟩

/-- Row `0` of the matrices, exactly as initialized by the Rust code
(`M[0][0] = 0`, `I[0][j] = NEGATIVE_INF`, and `row0D`/`row0S`). -/
def row0 (t : List ℕ) (p : Scoring) : Row :=
  { Mr := (List.range (t.length + 1)).map
      (fun j => if j = 0 then ⟨0, Moves.NONE⟩ else dCell)
    Ir := (List.range (t.length + 1)).map (fun _ => dCell)
    Dr := (List.range (t.length + 1)).map (row0D p)
    Sr := (List.range (t.length + 1)).map (row0S p)
    clip := 0 }

/-- The four-way maximum forming a `Score` cell, with the Rust
evaluation shape `max(max(I-as-INSERT, D-as-DELETE), max(M-as-tag,
soft_clip-as-PREFIX_CLIP))`. -/
def smax4 (p : Scoring) (iv dv mv : Int) (tag : Moves) : Cell :=
  cellMax (cellMax ⟨iv, Moves.INSERT⟩ ⟨dv, Moves.DELETE⟩)
          (cellMax ⟨mv, tag⟩ ⟨p.soft_clipping_score, Moves.PREFIX_CLIP⟩)

/-- The cells of one column of a row `i ≥ 1`. -/
structure ColCells where
  cM : Cell
  cI : Cell
  cD : Cell
  cS : Cell
deriving DecidableEq, Repr

/-- The fill of row `i ≥ 1` at each column, by recursion on the column
index, exactly following the Rust inner loop.  `x = s[i-1]` is this
row's reference symbol and `prev` is the completed row `i - 1`.  The
`cS` component at the final column is a scratch value the Rust code
never computes nor reads; the real final-column `Score` cell is
assembled in `nextRow`. -/
def colCells (x : ℕ) (t : List ℕ) (p : Scoring) (prev : Row) : ℕ → ColCells
  | 0 =>
    ⟨⟨0, Moves.NONE⟩,
     ⟨p.gap_inititation_score + p.gap_unit_score, Moves.NONE⟩,
     dCell,
     ⟨0, Moves.NONE⟩⟩
  | j + 1 =>
    let c := colCells x t p prev j
    let y := t.getD j 0
    let icell :=
      cellMax ⟨(prev.I (j + 1)).score + p.gap_unit_score, Moves.INSERT⟩
              ⟨(prev.S (j + 1)).score + p.gap_inititation_score + p.gap_unit_score,
               (prev.S (j + 1)).mov⟩
    let dcell :=
      cellMax ⟨c.cD.score + p.gap_unit_score, Moves.DELETE⟩
              ⟨c.cS.score + p.gap_inititation_score + p.gap_unit_score, c.cS.mov⟩
    let mcell : Cell :=
      ⟨(prev.S j).score + (if x = y then p.match_score else p.mismatch_score),
       (prev.S j).mov⟩
    let scell :=
      smax4 p icell.score dcell.score mcell.score
        (if x = y then Moves.MATCH else Moves.SUBS)
    ⟨mcell, icell, dcell, scell⟩

/-- The running suffix-clip maximum of a row: after interior column `j`
the Rust code replaces the final-column cell with
`S[i][j] + soft_clip` (tagged `SUFFIX_CLIP`, clip length `n - 1 - j`
in the code's indexing, i.e. `|t| - j`) whenever that strictly
improves it.  `suffFold k` is the state after sweeping columns
`1 .. k`, starting from the allocation value of the final cell. -/
def suffFold (p : Scoring) (tn : ℕ) (cc : ℕ → ColCells) : ℕ → Cell × ℕ
  | 0 => (dCell, 0)
  | k + 1 =>
    let b := suffFold p tn cc k
    let v := (cc (k + 1)).cS.score + p.soft_clipping_score
    if b.1.score < v then (⟨v, Moves.SUFFIX_CLIP⟩, tn - (k + 1)) else b

/-- The settled final-column `Score` cell of a row `i ≥ 1` together
with its clip length: the suffix-clip running best over interior
columns, overridden by the local four-way maximum `temp_max` only
when strictly better (which also resets the clip length to `0`). -/
def finCell (x : ℕ) (t : List ℕ) (p : Scoring) (prev : Row) : Cell × ℕ :=
  let tn := t.length
  let cc := colCells x t p prev
  let sf := suffFold p tn cc (tn - 1)
  let y := t.getD (tn - 1) 0
  let temp :=
    smax4 p (cc tn).cI.score (cc tn).cD.score (cc tn).cM.score
      (if x = y then Moves.MATCH else Moves.SUBS)
  if sf.1.score < temp.score then (temp, 0) else sf

/-- Build row `i ≥ 1` from row `i - 1`. -/
def nextRow (x : ℕ) (t : List ℕ) (p : Scoring) (prev : Row) : Row :=
  let tn := t.length
  let cols := (List.range (tn + 1)).map (colCells x t p prev)
  let fin := finCell x t p prev
  { Mr := cols.map ColCells.cM
    Ir := cols.map ColCells.cI
    Dr := cols.map ColCells.cD
    Sr := (List.range (tn + 1)).map
      (fun j =>
        if j = 0 then ⟨0, Moves.NONE⟩
        else if j = tn then fin.1
        else (colCells x t p prev j).cS)
    clip := fin.2 }

/-- The matrix rows, built bottom-up.  Row `i ≥ 1` consumes reference
symbol `s[i-1]`. -/
def rowsF (s t : List ℕ) (p : Scoring) : ℕ → Row
  | 0 => row0 t p
  | i + 1 => nextRow (s.getD i 0) t p (rowsF s t p i)

/-- The `match_matrix` cell at `(i, j)`. -/
def Mf (s t : List ℕ) (p : Scoring) (i j : ℕ) : Cell := (rowsF s t p i).M j

/-- The `insert_matrix` cell at `(i, j)`. -/
def If (s t : List ℕ) (p : Scoring) (i j : ℕ) : Cell := (rowsF s t p i).I j

/-- The `delete_matrix` cell at `(i, j)`. -/
def Df (s t : List ℕ) (p : Scoring) (i j : ℕ) : Cell := (rowsF s t p i).D j

/-- The `score_matrix` cell at `(i, j)`. -/
def Sf (s t : List ℕ) (p : Scoring) (i j : ℕ) : Cell := (rowsF s t p i).S j

/-- The `clip_lengths` entry of row `i`. -/
def clipf (s t : List ℕ) (p : Scoring) (i : ℕ) : ℕ := (rowsF s t p i).clip

/-- One step of the best-row scan: Rust keeps the running best score and
updates it (together with `s_range[1]`) only on strict improvement, so
the first row attaining the maximum wins. -/
def bestStep (s t : List ℕ) (p : Scoring) (acc : Int × Option ℕ) (i : ℕ) :
    Int × Option ℕ :=
  if acc.1 < (Sf s t p i t.length).score
  then ((Sf s t p i t.length).score, some i) else acc

/-- The scan over rows `0 .. |s|` for the best final-column score,
starting from the `NEGATIVE_INF` initialization of `align.score`.
Returns `(best score, best row)`; `none` models `s_range[1]`
remaining `-1` (the Rust code then panics indexing `clip_lengths`). -/
def bestScan (s t : List ℕ) (p : Scoring) : Int × Option ℕ :=
  (List.range (s.length + 1)).foldl (bestStep s t p) (NEGATIVE_INF, none)

/-- Does a move consume a reference symbol (decrement `s_range[0]`)? -/
def isMSI : Moves → Bool
  | Moves.MATCH => true
  | Moves.SUBS => true
  | Moves.INSERT => true
  | _ => false

/-- The number of MATCH/SUBS/INSERT moves in a list. -/
def countMSI (l : List Moves) : ℕ := (l.filter isMSI).length

/-- The traceback loop.  `acc` holds the pushed moves most-recent-first
(so it already equals the reversed list `moves` the Rust code
returns).  Each iteration consumes `last` exactly as the Rust `match`:
it reads the next move from the corresponding matrix, updates the
cursor (natural subtraction mirrors the release-mode behaviour, where a
decrement of `0` is immediately followed by the `NONE` break), breaks
on `PREFIX_CLIP` (recording the prefix clip length `j`) and on `NONE`.
Fuel exhaustion returns `none` (the Rust loop would spin or crash). -/
def tbLoop (s t : List ℕ) (p : Scoring) (clip : ℕ) :
    ℕ → ℕ → ℕ → Moves → List Moves → Option (List Moves × ℕ)
  | 0, _, _, _, _ => none
  | fuel + 1, i, j, last, acc =>
    match last with
    | Moves.PREFIX_CLIP => some (acc, j)
    | Moves.NONE => some (acc, 0)
    | Moves.MATCH =>
      let nx := (Mf s t p i j).mov
      if nx = Moves.NONE then some (acc, 0)
      else tbLoop s t p clip fuel (i - 1) (j - 1) nx (nx :: acc)
    | Moves.SUBS =>
      let nx := (Mf s t p i j).mov
      if nx = Moves.NONE then some (acc, 0)
      else tbLoop s t p clip fuel (i - 1) (j - 1) nx (nx :: acc)
    | Moves.INSERT =>
      let nx := (If s t p i j).mov
      if nx = Moves.NONE then some (acc, 0)
      else tbLoop s t p clip fuel (i - 1) j nx (nx :: acc)
    | Moves.DELETE =>
      let nx := (Df s t p i j).mov
      if nx = Moves.NONE then some (acc, 0)
      else tbLoop s t p clip fuel i (j - 1) nx (nx :: acc)
    | Moves.SUFFIX_CLIP =>
      let j2 := j - clip
      let nx := (Sf s t p i j2).mov
      if nx = Moves.NONE then some (acc, 0)
      else tbLoop s t p clip fuel i j2 nx (nx :: acc)

/-- The alignment output, mirroring the output fields of
`SemiglobalAlign` (`s_range`/`t_range` are split into their two
endpoints; the second endpoint is exclusive). -/
structure AlignmentResult where
  score : Int
  s_range0 : Int
  s_range1 : Int
  t_range0 : Int
  t_range1 : Int
  moves : List Moves
  prefix_clip_length : ℕ
  suffix_clip_length : ℕ
deriving DecidableEq, Repr

/-- The full computation `SemiglobalAlign::compute`: fill, best-row
scan, traceback, range bookkeeping.  `none` models the Rust panics:
the out-of-bounds `clip_lengths[-1]` when no row beats the
`NEGATIVE_INF` initial score, fuel exhaustion of the loop, and the
`panic!("P cannot be NONE...")` when a `NONE` move is found while
computing `s_range[0]`. -/
def compute (s t : List ℕ) (p : Scoring) : Option AlignmentResult :=
  let tn := t.length
  match (bestScan s t p).2 with
  | none => none
  | some i0 =>
    let clip := clipf s t p i0
    let first := (Sf s t p i0 tn).mov
    match tbLoop s t p clip (s.length + tn + 1) i0 tn first [first] with
    | none => none
    | some (P, plen) =>
      if Moves.NONE ∈ P then none
      else
        some { score := (Sf s t p i0 tn).score
               s_range0 := (i0 : Int) - (countMSI P : Int)
               s_range1 := (i0 : Int)
               t_range0 := 0
               t_range1 := (tn : Int)
               moves := P
               prefix_clip_length := plen
               suffix_clip_length := clip }

/-! ### Basic lemmas about cells and maxima -/

theorem getD_map_range {α : Type} (f : ℕ → α) (n j : ℕ) (h : j < n) (d : α) :
    ((List.range n).map f).getD j d = f j := by
  simp [List.getD_eq_getElem?_getD, List.getElem?_map, List.getElem?_range h]

theorem cellMax_cases (a b : Cell) : cellMax a b = a ∨ cellMax a b = b := by
  unfold cellMax
  split
  · exact Or.inl rfl
  · exact Or.inr rfl

theorem cellMax_score (a b : Cell) : (cellMax a b).score = max a.score b.score := by
  unfold cellMax
  split
  · rename_i h
    rcases h with h | ⟨h, _⟩
    · exact (max_eq_left (le_of_lt h)).symm
    · exact (max_eq_left (le_of_eq h)).symm
  · rename_i h
    have h2 : ¬ (b.score < a.score) := fun hc => h (Or.inl hc)
    exact (max_eq_right (le_of_not_lt h2)).symm

theorem le_cellMax_left (a b : Cell) : a.score ≤ (cellMax a b).score := by
  rw [cellMax_score]
  exact le_max_left _ _

theorem le_cellMax_right (a b : Cell) : b.score ≤ (cellMax a b).score := by
  rw [cellMax_score]
  exact le_max_right _ _

theorem cellMax_eq_left (a b : Cell) (h : cellLt b a) : cellMax a b = a := by
  unfold cellMax
  exact if_pos h

theorem cellMax_eq_right (a b : Cell) (h : ¬ cellLt b a) : cellMax a b = b := by
  unfold cellMax
  exact if_neg h

/-- When the scores tie, Rust's `max` on cells keeps whichever operand
has the larger move in declaration order (the second on full ties). -/
theorem cellMax_tie (a b : Cell) (h : a.score = b.score) :
    cellMax a b = if movRank b.mov < movRank a.mov then a else b := by
  unfold cellMax cellLt
  rcases Nat.lt_or_ge (movRank b.mov) (movRank a.mov) with h2 | h2
  · rw [if_pos (Or.inr ⟨h.symm, h2⟩), if_pos h2]
  · rw [if_neg, if_neg (by omega)]
    intro hc
    rcases hc with hc | ⟨_, hc⟩
    · omega
    · omega

theorem smax4_cases (p : Scoring) (iv dv mv : Int) (tag : Moves) :
    smax4 p iv dv mv tag = ⟨iv, Moves.INSERT⟩ ∨
    smax4 p iv dv mv tag = ⟨dv, Moves.DELETE⟩ ∨
    smax4 p iv dv mv tag = ⟨mv, tag⟩ ∨
    smax4 p iv dv mv tag = ⟨p.soft_clipping_score, Moves.PREFIX_CLIP⟩ := by
  unfold smax4
  rcases cellMax_cases (cellMax ⟨iv, Moves.INSERT⟩ ⟨dv, Moves.DELETE⟩)
      (cellMax ⟨mv, tag⟩ ⟨p.soft_clipping_score, Moves.PREFIX_CLIP⟩) with h | h <;>
    rw [h]
  · rcases cellMax_cases (⟨iv, Moves.INSERT⟩ : Cell) ⟨dv, Moves.DELETE⟩ with h2 | h2 <;>
      rw [h2] <;> simp
  · rcases cellMax_cases (⟨mv, tag⟩ : Cell) ⟨p.soft_clipping_score, Moves.PREFIX_CLIP⟩
        with h2 | h2 <;> rw [h2] <;> simp

theorem smax4_score (p : Scoring) (iv dv mv : Int) (tag : Moves) :
    (smax4 p iv dv mv tag).score = max (max iv dv) (max mv p.soft_clipping_score) := by
  unfold smax4
  rw [cellMax_score, cellMax_score, cellMax_score]

theorem le_smax4_I (p : Scoring) (iv dv mv : Int) (tag : Moves) :
    iv ≤ (smax4 p iv dv mv tag).score := by
  rw [smax4_score]
  exact le_trans (le_max_left _ dv) (le_max_left _ _)

theorem le_smax4_D (p : Scoring) (iv dv mv : Int) (tag : Moves) :
    dv ≤ (smax4 p iv dv mv tag).score := by
  rw [smax4_score]
  exact le_trans (le_max_right iv _) (le_max_left _ _)

theorem le_smax4_M (p : Scoring) (iv dv mv : Int) (tag : Moves) :
    mv ≤ (smax4 p iv dv mv tag).score := by
  rw [smax4_score]
  exact le_trans (le_max_left _ p.soft_clipping_score) (le_max_right _ _)

theorem le_smax4_P (p : Scoring) (iv dv mv : Int) (tag : Moves) :
    p.soft_clipping_score ≤ (smax4 p iv dv mv tag).score := by
  rw [smax4_score]
  exact le_trans (le_max_right mv _) (le_max_right _ _)

/-- The move stored in a `Score` cell identifies which candidate was
kept, hence its score (tags `MATCH`/`SUBS` are distinct from the gap
and clip tags). -/
theorem smax4_mov_insert (p : Scoring) (iv dv mv : Int) (tag : Moves)
    (htag : tag = Moves.MATCH ∨ tag = Moves.SUBS)
    (h : (smax4 p iv dv mv tag).mov = Moves.INSERT) :
    smax4 p iv dv mv tag = ⟨iv, Moves.INSERT⟩ := by
  rcases smax4_cases p iv dv mv tag with h2 | h2 | h2 | h2 <;> rw [h2] at h ⊢ <;>
    exfalso <;> rcases htag with h3 | h3 <;> subst h3 <;> simp at h

theorem smax4_mov_delete (p : Scoring) (iv dv mv : Int) (tag : Moves)
    (htag : tag = Moves.MATCH ∨ tag = Moves.SUBS)
    (h : (smax4 p iv dv mv tag).mov = Moves.DELETE) :
    smax4 p iv dv mv tag = ⟨dv, Moves.DELETE⟩ := by
  rcases smax4_cases p iv dv mv tag with h2 | h2 | h2 | h2 <;> rw [h2] at h ⊢ <;>
    exfalso <;> rcases htag with h3 | h3 <;> subst h3 <;> simp at h

theorem smax4_mov_tag (p : Scoring) (iv dv mv : Int) (tag : Moves)
    (h : (smax4 p iv dv mv tag).mov = Moves.MATCH ∨
         (smax4 p iv dv mv tag).mov = Moves.SUBS) :
    smax4 p iv dv mv tag = ⟨mv, tag⟩ := by
  rcases smax4_cases p iv dv mv tag with h2 | h2 | h2 | h2 <;> rw [h2] at h ⊢ <;>
    exfalso <;> rcases h with h | h <;> simp at h

theorem smax4_mov_clip (p : Scoring) (iv dv mv : Int) (tag : Moves)
    (htag : tag = Moves.MATCH ∨ tag = Moves.SUBS)
    (h : (smax4 p iv dv mv tag).mov = Moves.PREFIX_CLIP) :
    smax4 p iv dv mv tag = ⟨p.soft_clipping_score, Moves.PREFIX_CLIP⟩ := by
  rcases smax4_cases p iv dv mv tag with h2 | h2 | h2 | h2 <;> rw [h2] at h ⊢ <;>
    exfalso <;> rcases htag with h3 | h3 <;> subst h3 <;> simp at h

theorem smax4_mov_mem (p : Scoring) (iv dv mv : Int) (tag : Moves) :
    (smax4 p iv dv mv tag).mov = Moves.INSERT ∨
    (smax4 p iv dv mv tag).mov = Moves.DELETE ∨
    (smax4 p iv dv mv tag).mov = tag ∨
    (smax4 p iv dv mv tag).mov = Moves.PREFIX_CLIP := by
  rcases smax4_cases p iv dv mv tag with h2 | h2 | h2 | h2 <;> rw [h2] <;> simp

/-- When the soft-clip candidate is at least every other candidate, it
is the one stored: `PREFIX_CLIP` wins all ties because it has the
largest rank among the four tags. -/
theorem smax4_clip_of_ties (p : Scoring) (iv dv mv : Int) (tag : Moves)
    (htag : tag = Moves.MATCH ∨ tag = Moves.SUBS)
    (hi : iv ≤ p.soft_clipping_score) (hd : dv ≤ p.soft_clipping_score)
    (hm : mv ≤ p.soft_clipping_score) :
    smax4 p iv dv mv tag = ⟨p.soft_clipping_score, Moves.PREFIX_CLIP⟩ := by
  have hrank : movRank tag ≤ 1 := by
    rcases htag with h | h <;> rw [h] <;> simp [movRank]
  unfold smax4
  have h2 : cellMax ⟨mv, tag⟩ ⟨p.soft_clipping_score, Moves.PREFIX_CLIP⟩ =
      (⟨p.soft_clipping_score, Moves.PREFIX_CLIP⟩ : Cell) := by
    apply cellMax_eq_right
    intro hc
    rcases hc with hc | ⟨hc, hc2⟩
    · simp at hc; omega
    · rw [show movRank Moves.PREFIX_CLIP = 4 from rfl] at hc2
      simp at hc2
      omega
  rw [h2]
  apply cellMax_eq_right
  intro hc
  rcases hc with hc | ⟨hc, hc2⟩ <;>
      rcases cellMax_cases (⟨iv, Moves.INSERT⟩ : Cell) ⟨dv, Moves.DELETE⟩ with h3 | h3
  · rw [h3] at hc; simp at hc; omega
  · rw [h3] at hc; simp at hc; omega
  · rw [h3] at hc2; simp [movRank] at hc2
  · rw [h3] at hc2; simp [movRank] at hc2

/-! ### Accessor and recurrence lemmas for the matrices -/

theorem Mf_zero (s t : List ℕ) (p : Scoring) (j : ℕ) (h : j ≤ t.length) :
    Mf s t p 0 j = if j = 0 then ⟨0, Moves.NONE⟩ else dCell := by
  simp only [Mf, rowsF, Row.M, row0]
  exact getD_map_range _ _ _ (by omega) _

theorem If_zero (s t : List ℕ) (p : Scoring) (j : ℕ) (h : j ≤ t.length) :
    If s t p 0 j = dCell := by
  simp only [If, rowsF, Row.I, row0]
  rw [getD_map_range _ _ _ (by omega : j < t.length + 1)]

theorem Df_zero (s t : List ℕ) (p : Scoring) (j : ℕ) (h : j ≤ t.length) :
    Df s t p 0 j = row0D p j := by
  simp only [Df, rowsF, Row.D, row0]
  exact getD_map_range _ _ _ (by omega) _

theorem Sf_zero (s t : List ℕ) (p : Scoring) (j : ℕ) (h : j ≤ t.length) :
    Sf s t p 0 j = row0S p j := by
  simp only [Sf, rowsF, Row.S, row0]
  exact getD_map_range _ _ _ (by omega) _

theorem clipf_zero (s t : List ℕ) (p : Scoring) : clipf s t p 0 = 0 := rfl

theorem Mf_succ (s t : List ℕ) (p : Scoring) (i j : ℕ) (h : j ≤ t.length) :
    Mf s t p (i + 1) j = (colCells (s.getD i 0) t p (rowsF s t p i) j).cM := by
  simp only [Mf, rowsF, Row.M, nextRow, List.map_map]
  rw [getD_map_range _ _ _ (by omega : j < t.length + 1)]
  rfl

theorem If_succ (s t : List ℕ) (p : Scoring) (i j : ℕ) (h : j ≤ t.length) :
    If s t p (i + 1) j = (colCells (s.getD i 0) t p (rowsF s t p i) j).cI := by
  simp only [If, rowsF, Row.I, nextRow, List.map_map]
  rw [getD_map_range _ _ _ (by omega : j < t.length + 1)]
  rfl

theorem Df_succ (s t : List ℕ) (p : Scoring) (i j : ℕ) (h : j ≤ t.length) :
    Df s t p (i + 1) j = (colCells (s.getD i 0) t p (rowsF s t p i) j).cD := by
  simp only [Df, rowsF, Row.D, nextRow, List.map_map]
  rw [getD_map_range _ _ _ (by omega : j < t.length + 1)]
  rfl

theorem Sf_succ_zero (s t : List ℕ) (p : Scoring) (i : ℕ) :
    Sf s t p (i + 1) 0 = ⟨0, Moves.NONE⟩ := by
  simp only [Sf, rowsF, Row.S, nextRow]
  rw [getD_map_range _ _ _ (by omega : 0 < t.length + 1)]
  simp

theorem Sf_succ_int (s t : List ℕ) (p : Scoring) (i j : ℕ) (h1 : j ≠ 0)
    (h2 : j < t.length) :
    Sf s t p (i + 1) j = (colCells (s.getD i 0) t p (rowsF s t p i) j).cS := by
  simp only [Sf, rowsF, Row.S, nextRow]
  rw [getD_map_range _ _ _ (by omega : j < t.length + 1)]
  rw [if_neg h1, if_neg (by omega)]

theorem Sf_succ_fin (s t : List ℕ) (p : Scoring) (i : ℕ) (h : 1 ≤ t.length) :
    Sf s t p (i + 1) t.length = (finCell (s.getD i 0) t p (rowsF s t p i)).1 := by
  simp only [Sf, rowsF, Row.S, nextRow]
  rw [getD_map_range _ _ _ (by omega : t.length < t.length + 1)]
  rw [if_neg (by omega), if_pos rfl]

theorem clipf_succ (s t : List ℕ) (p : Scoring) (i : ℕ) :
    clipf s t p (i + 1) = (finCell (s.getD i 0) t p (rowsF s t p i)).2 := rfl

theorem colCells_zero (x : ℕ) (t : List ℕ) (p : Scoring) (prev : Row) :
    colCells x t p prev 0 =
      ⟨⟨0, Moves.NONE⟩,
       ⟨p.gap_inititation_score + p.gap_unit_score, Moves.NONE⟩,
       dCell,
       ⟨0, Moves.NONE⟩⟩ := rfl

theorem colCells_cM (x : ℕ) (t : List ℕ) (p : Scoring) (prev : Row) (j : ℕ) :
    (colCells x t p prev (j + 1)).cM =
      ⟨(prev.S j).score + (if x = t.getD j 0 then p.match_score else p.mismatch_score),
       (prev.S j).mov⟩ := by
  simp only [colCells]

theorem colCells_cI (x : ℕ) (t : List ℕ) (p : Scoring) (prev : Row) (j : ℕ) :
    (colCells x t p prev (j + 1)).cI =
      cellMax ⟨(prev.I (j + 1)).score + p.gap_unit_score, Moves.INSERT⟩
              ⟨(prev.S (j + 1)).score + p.gap_inititation_score + p.gap_unit_score,
               (prev.S (j + 1)).mov⟩ := by
  simp only [colCells]

theorem colCells_cD (x : ℕ) (t : List ℕ) (p : Scoring) (prev : Row) (j : ℕ) :
    (colCells x t p prev (j + 1)).cD =
      cellMax ⟨(colCells x t p prev j).cD.score + p.gap_unit_score, Moves.DELETE⟩
              ⟨(colCells x t p prev j).cS.score + p.gap_inititation_score +
                 p.gap_unit_score,
               (colCells x t p prev j).cS.mov⟩ := by
  simp only [colCells]

theorem colCells_cS (x : ℕ) (t : List ℕ) (p : Scoring) (prev : Row) (j : ℕ) :
    (colCells x t p prev (j + 1)).cS =
      smax4 p (colCells x t p prev (j + 1)).cI.score
        (colCells x t p prev (j + 1)).cD.score
        (colCells x t p prev (j + 1)).cM.score
        (if x = t.getD j 0 then Moves.MATCH else Moves.SUBS) := by
  simp only [colCells]

/-- The scratch interior `Score` component agrees with the matrix for
interior columns. -/
theorem ccS_eq (s t : List ℕ) (p : Scoring) (i j : ℕ) (h : j < t.length) :
    (colCells (s.getD i 0) t p (rowsF s t p i) j).cS = Sf s t p (i + 1) j := by
  cases j with
  | zero => rw [Sf_succ_zero, colCells_zero]
  | succ k => rw [Sf_succ_int s t p i (k + 1) (by omega) h]

/-- Recurrence of the `insert_matrix`, at the matrix level. -/
theorem If_rec (s t : List ℕ) (p : Scoring) (i j : ℕ) (h1 : 1 ≤ j)
    (h2 : j ≤ t.length) :
    If s t p (i + 1) j =
      cellMax ⟨(If s t p i j).score + p.gap_unit_score, Moves.INSERT⟩
              ⟨(Sf s t p i j).score + p.gap_inititation_score + p.gap_unit_score,
               (Sf s t p i j).mov⟩ := by
  obtain ⟨k, rfl⟩ : ∃ k, j = k + 1 := ⟨j - 1, by omega⟩
  rw [If_succ s t p i (k + 1) h2, colCells_cI]
  rfl

/-- Recurrence of the `delete_matrix`, at the matrix level. -/
theorem Df_rec (s t : List ℕ) (p : Scoring) (i j : ℕ) (h2 : j + 1 ≤ t.length) :
    Df s t p (i + 1) (j + 1) =
      cellMax ⟨(Df s t p (i + 1) j).score + p.gap_unit_score, Moves.DELETE⟩
              ⟨(Sf s t p (i + 1) j).score + p.gap_inititation_score +
                 p.gap_unit_score,
               (Sf s t p (i + 1) j).mov⟩ := by
  rw [Df_succ s t p i (j + 1) h2, colCells_cD,
    Df_succ s t p i j (by omega), ccS_eq s t p i j (by omega)]

/-- Recurrence of the `match_matrix`, at the matrix level. -/
theorem Mf_rec (s t : List ℕ) (p : Scoring) (i j : ℕ) (h2 : j + 1 ≤ t.length) :
    Mf s t p (i + 1) (j + 1) =
      ⟨(Sf s t p i j).score +
         (if s.getD i 0 = t.getD j 0 then p.match_score else p.mismatch_score),
       (Sf s t p i j).mov⟩ := by
  rw [Mf_succ s t p i (j + 1) h2, colCells_cM]
  rfl

/-- Recurrence of the interior `score_matrix` cells, at the matrix
level. -/
theorem Sf_rec_int (s t : List ℕ) (p : Scoring) (i j : ℕ) (h : j + 1 < t.length) :
    Sf s t p (i + 1) (j + 1) =
      smax4 p (If s t p (i + 1) (j + 1)).score (Df s t p (i + 1) (j + 1)).score
        (Mf s t p (i + 1) (j + 1)).score
        (if s.getD i 0 = t.getD j 0 then Moves.MATCH else Moves.SUBS) := by
  rw [Sf_succ_int s t p i (j + 1) (by omega) h, colCells_cS,
    ← If_succ s t p i (j + 1) (by omega), ← Df_succ s t p i (j + 1) (by omega),
    ← Mf_succ s t p i (j + 1) (by omega)]

/-- The settled final-column cell and clip length of row `i + 1`. -/
theorem Sf_rec_fin (s t : List ℕ) (p : Scoring) (i : ℕ) (h : 1 ≤ t.length) :
    (Sf s t p (i + 1) t.length, clipf s t p (i + 1)) =
      (if (suffFold p t.length (colCells (s.getD i 0) t p (rowsF s t p i))
            (t.length - 1)).1.score <
          (smax4 p (If s t p (i + 1) t.length).score
            (Df s t p (i + 1) t.length).score (Mf s t p (i + 1) t.length).score
            (if s.getD i 0 = t.getD (t.length - 1) 0
             then Moves.MATCH else Moves.SUBS)).score
       then (smax4 p (If s t p (i + 1) t.length).score
              (Df s t p (i + 1) t.length).score (Mf s t p (i + 1) t.length).score
              (if s.getD i 0 = t.getD (t.length - 1) 0
               then Moves.MATCH else Moves.SUBS), 0)
       else suffFold p t.length (colCells (s.getD i 0) t p (rowsF s t p i))
              (t.length - 1)) := by
  rw [Sf_succ_fin s t p i h, clipf_succ]
  simp only [finCell]
  rw [← If_succ s t p i t.length (le_refl _), ← Df_succ s t p i t.length (le_refl _),
    ← Mf_succ s t p i t.length (le_refl _)]

/-! ### Properties of the suffix-clip running maximum -/

theorem suffFold_ge_neg (p : Scoring) (tn : ℕ) (cc : ℕ → ColCells) (k : ℕ) :
    NEGATIVE_INF ≤ (suffFold p tn cc k).1.score := by
  induction k with
  | zero => simp [suffFold, dCell]
  | succ k ih =>
    simp only [suffFold]
    split
    · rename_i h
      simp only []
      omega
    · exact ih

theorem suffFold_mov (p : Scoring) (tn : ℕ) (cc : ℕ → ColCells) (k : ℕ) :
    (suffFold p tn cc k).1.mov = Moves.NONE ∨
    (suffFold p tn cc k).1.mov = Moves.SUFFIX_CLIP := by
  induction k with
  | zero => simp [suffFold, dCell]
  | succ k ih =>
    simp only [suffFold]
    split
    · right; rfl
    · exact ih

theorem suffFold_none (p : Scoring) (tn : ℕ) (cc : ℕ → ColCells) (k : ℕ)
    (h : (suffFold p tn cc k).1.mov = Moves.NONE) :
    suffFold p tn cc k = (dCell, 0) := by
  induction k with
  | zero => rfl
  | succ k ih =>
    simp only [suffFold] at h ⊢
    split
    · rename_i h2
      rw [if_pos h2] at h
      simp at h
    · rename_i h2
      rw [if_neg h2] at h
      exact ih h

theorem suffFold_suffix (p : Scoring) (tn : ℕ) (cc : ℕ → ColCells) (k : ℕ)
    (h : (suffFold p tn cc k).1.mov = Moves.SUFFIX_CLIP) :
    ∃ js, 1 ≤ js ∧ js ≤ k ∧ (suffFold p tn cc k).2 = tn - js ∧
      (suffFold p tn cc k).1.score = (cc js).cS.score + p.soft_clipping_score ∧
      NEGATIVE_INF < (suffFold p tn cc k).1.score := by
  induction k with
  | zero => simp [suffFold, dCell] at h
  | succ k ih =>
    have hneg := suffFold_ge_neg p tn cc k
    simp only [suffFold] at h ⊢
    split
    · rename_i h2
      refine ⟨k + 1, by omega, le_refl _, rfl, rfl, by simp; omega⟩
    · rename_i h2
      rw [if_neg h2] at h
      obtain ⟨js, a1, a2, a3, a4, a5⟩ := ih h
      exact ⟨js, a1, by omega, a3, a4, a5⟩

theorem suffFold_ge (p : Scoring) (tn : ℕ) (cc : ℕ → ColCells) (k j : ℕ)
    (h1 : 1 ≤ j) (h2 : j ≤ k) :
    (cc j).cS.score + p.soft_clipping_score ≤ (suffFold p tn cc k).1.score := by
  induction k with
  | zero => omega
  | succ k ih =>
    simp only [suffFold]
    rcases Nat.lt_or_ge j (k + 1) with hj | hj
    · have := ih (by omega)
      split
      · rename_i h3
        simp only []
        omega
      · exact this
    · have hj2 : j = k + 1 := by omega
      subst hj2
      split
      · rename_i h3
        simp only []
        omega
      · rename_i h3
        omega

/-! ### Boundary cells -/

theorem Mf_col0 (s t : List ℕ) (p : Scoring) (i : ℕ) :
    Mf s t p i 0 = ⟨0, Moves.NONE⟩ := by
  cases i with
  | zero => rw [Mf_zero s t p 0 (by omega)]; rfl
  | succ i => rw [Mf_succ s t p i 0 (by omega), colCells_zero]

theorem If_col0 (s t : List ℕ) (p : Scoring) (i : ℕ) (h : 1 ≤ i) :
    If s t p i 0 = ⟨p.gap_inititation_score + p.gap_unit_score, Moves.NONE⟩ := by
  cases i with
  | zero => omega
  | succ i => rw [If_succ s t p i 0 (by omega), colCells_zero]

theorem Df_col0 (s t : List ℕ) (p : Scoring) (i : ℕ) : Df s t p i 0 = dCell := by
  cases i with
  | zero => rw [Df_zero s t p 0 (by omega)]; rfl
  | succ i => rw [Df_succ s t p i 0 (by omega), colCells_zero]

theorem Sf_col0 (s t : List ℕ) (p : Scoring) (i : ℕ) :
    Sf s t p i 0 = ⟨0, Moves.NONE⟩ := by
  cases i with
  | zero => rw [Sf_zero s t p 0 (by omega)]; rfl
  | succ i => exact Sf_succ_zero s t p i

theorem Mf_row0_mov (s t : List ℕ) (p : Scoring) (j : ℕ) (h : j ≤ t.length) :
    (Mf s t p 0 j).mov = Moves.NONE := by
  rw [Mf_zero s t p j h]
  split <;> rfl

theorem If_row0_mov (s t : List ℕ) (p : Scoring) (j : ℕ) (h : j ≤ t.length) :
    (If s t p 0 j).mov = Moves.NONE := by
  rw [If_zero s t p j h]
  rfl

theorem row0S_cases (p : Scoring) (j : ℕ) (h : 1 ≤ j) :
    row0S p j = ⟨p.gap_inititation_score + p.gap_unit_score * (j : Int), Moves.DELETE⟩ ∨
    row0S p j = ⟨p.soft_clipping_score, Moves.PREFIX_CLIP⟩ := by
  unfold row0S
  rw [if_neg (by omega)]
  exact cellMax_cases _ _

theorem Sf_row0_ge_sc (s t : List ℕ) (p : Scoring) (j : ℕ) (h1 : 1 ≤ j)
    (h2 : j ≤ t.length) : p.soft_clipping_score ≤ (Sf s t p 0 j).score := by
  rw [Sf_zero s t p j h2]
  unfold row0S
  rw [if_neg (by omega)]
  exact le_cellMax_right _ _

/-! ### Characterization of the settled final-column cells -/

/-- The `MATCH`/`SUBS` tag of row `i + 1` at the final column. -/
def rowTag (s t : List ℕ) (_p : Scoring) (i : ℕ) : Moves :=
  if s.getD i 0 = t.getD (t.length - 1) 0 then Moves.MATCH else Moves.SUBS

/-- The suffix-clip running best of row `i + 1` after the interior
sweep. -/
def rowSuff (s t : List ℕ) (p : Scoring) (i : ℕ) : Cell × ℕ :=
  suffFold p t.length (colCells (s.getD i 0) t p (rowsF s t p i)) (t.length - 1)

/-- The local four-way `temp_max` of row `i + 1` at the final column. -/
def rowTemp (s t : List ℕ) (p : Scoring) (i : ℕ) : Cell :=
  smax4 p (If s t p (i + 1) t.length).score (Df s t p (i + 1) t.length).score
    (Mf s t p (i + 1) t.length).score (rowTag s t p i)

theorem Sfin_eq (s t : List ℕ) (p : Scoring) (i : ℕ) (h : 1 ≤ t.length) :
    (Sf s t p (i + 1) t.length, clipf s t p (i + 1)) =
      if (rowSuff s t p i).1.score < (rowTemp s t p i).score
      then (rowTemp s t p i, 0) else rowSuff s t p i := by
  rw [Sf_rec_fin s t p i h]
  rfl

theorem rowTag_cases (s t : List ℕ) (p : Scoring) (i : ℕ) :
    rowTag s t p i = Moves.MATCH ∨ rowTag s t p i = Moves.SUBS := by
  unfold rowTag
  split
  · exact Or.inl rfl
  · exact Or.inr rfl

theorem rowSuff_mov (s t : List ℕ) (p : Scoring) (i : ℕ) :
    (rowSuff s t p i).1.mov = Moves.NONE ∨
    (rowSuff s t p i).1.mov = Moves.SUFFIX_CLIP := suffFold_mov _ _ _ _

theorem Sfin_ge_cand (s t : List ℕ) (p : Scoring) (i : ℕ) (j : ℕ) (h : 1 ≤ t.length)
    (h1 : 1 ≤ j) (h2 : j ≤ t.length - 1) :
    (Sf s t p (i + 1) j).score + p.soft_clipping_score ≤
      (Sf s t p (i + 1) t.length).score := by
  have hg := suffFold_ge p t.length (colCells (s.getD i 0) t p (rowsF s t p i))
    (t.length - 1) j h1 h2
  rw [ccS_eq s t p i j (by omega)] at hg
  have he := congrArg Prod.fst (Sfin_eq s t p i h)
  simp only [] at he
  rw [he]
  split
  · rename_i h3
    have : (rowSuff s t p i).1.score < (rowTemp s t p i).score := h3
    calc (Sf s t p (i + 1) j).score + p.soft_clipping_score
        ≤ (rowSuff s t p i).1.score := hg
      _ ≤ (rowTemp s t p i).score := le_of_lt this
  · exact hg

theorem Sfin_mov_none (s t : List ℕ) (p : Scoring) (i : ℕ) (h : 1 ≤ t.length)
    (hm : (Sf s t p (i + 1) t.length).mov = Moves.NONE) :
    Sf s t p (i + 1) t.length = dCell ∧ clipf s t p (i + 1) = 0 := by
  have he := Sfin_eq s t p i h
  rw [Prod.ext_iff] at he
  obtain ⟨he1, he2⟩ := he
  simp only [] at he1 he2
  by_cases hc : (rowSuff s t p i).1.score < (rowTemp s t p i).score
  · rw [if_pos hc] at he1
    exfalso
    rw [he1] at hm
    rcases smax4_cases p (If s t p (i + 1) t.length).score
        (Df s t p (i + 1) t.length).score (Mf s t p (i + 1) t.length).score
        (rowTag s t p i) with h4 | h4 | h4 | h4 <;>
      rw [show rowTemp s t p i = smax4 p (If s t p (i + 1) t.length).score
          (Df s t p (i + 1) t.length).score (Mf s t p (i + 1) t.length).score
          (rowTag s t p i) from rfl, h4] at hm <;>
      first
      | (rcases rowTag_cases s t p i with h5 | h5 <;> rw [h5] at hm <;> simp at hm)
      | simp at hm
  · rw [if_neg hc] at he1 he2
    rw [he1] at hm ⊢
    rw [he2]
    have := suffFold_none p t.length _ (t.length - 1) hm
    unfold rowSuff at this ⊢
    rw [this]
    exact ⟨rfl, rfl⟩

theorem Sfin_suffix (s t : List ℕ) (p : Scoring) (i : ℕ) (h : 1 ≤ t.length)
    (hm : (Sf s t p (i + 1) t.length).mov = Moves.SUFFIX_CLIP) :
    ∃ js, 1 ≤ js ∧ js ≤ t.length - 1 ∧ clipf s t p (i + 1) = t.length - js ∧
      (Sf s t p (i + 1) t.length).score =
        (Sf s t p (i + 1) js).score + p.soft_clipping_score ∧
      NEGATIVE_INF < (Sf s t p (i + 1) t.length).score := by
  have he := Sfin_eq s t p i h
  rw [Prod.ext_iff] at he
  obtain ⟨he1, he2⟩ := he
  simp only [] at he1 he2
  by_cases hc : (rowSuff s t p i).1.score < (rowTemp s t p i).score
  · rw [if_pos hc] at he1
    exfalso
    rw [he1] at hm
    rcases smax4_cases p (If s t p (i + 1) t.length).score
        (Df s t p (i + 1) t.length).score (Mf s t p (i + 1) t.length).score
        (rowTag s t p i) with h4 | h4 | h4 | h4 <;>
      rw [show rowTemp s t p i = smax4 p (If s t p (i + 1) t.length).score
          (Df s t p (i + 1) t.length).score (Mf s t p (i + 1) t.length).score
          (rowTag s t p i) from rfl, h4] at hm <;>
      first
      | (rcases rowTag_cases s t p i with h5 | h5 <;> rw [h5] at hm <;> simp at hm)
      | simp at hm
  · rw [if_neg hc] at he1 he2
    unfold rowSuff at he1 he2
    rw [he1] at hm ⊢
    rw [he2]
    obtain ⟨js, a1, a2, a3, a4, a5⟩ := suffFold_suffix p t.length _ (t.length - 1) hm
    refine ⟨js, a1, a2, a3, ?_, a5⟩
    rw [a4, ccS_eq s t p i js (by omega)]

theorem Sfin_temp (s t : List ℕ) (p : Scoring) (i : ℕ) (h : 1 ≤ t.length)
    (hm1 : (Sf s t p (i + 1) t.length).mov ≠ Moves.NONE)
    (hm2 : (Sf s t p (i + 1) t.length).mov ≠ Moves.SUFFIX_CLIP) :
    Sf s t p (i + 1) t.length = rowTemp s t p i ∧ clipf s t p (i + 1) = 0 ∧
      (∀ j, 1 ≤ j → j ≤ t.length - 1 →
        (Sf s t p (i + 1) j).score + p.soft_clipping_score <
          (Sf s t p (i + 1) t.length).score) ∧
      NEGATIVE_INF < (Sf s t p (i + 1) t.length).score := by
  have he := Sfin_eq s t p i h
  rw [Prod.ext_iff] at he
  obtain ⟨he1, he2⟩ := he
  simp only [] at he1 he2
  by_cases hc : (rowSuff s t p i).1.score < (rowTemp s t p i).score
  · rw [if_pos hc] at he1 he2
    have hneg : NEGATIVE_INF ≤ (rowSuff s t p i).1.score := suffFold_ge_neg _ _ _ _
    refine ⟨he1, he2, ?_, ?_⟩
    · intro j h1 h2
      have hg := suffFold_ge p t.length (colCells (s.getD i 0) t p (rowsF s t p i))
        (t.length - 1) j h1 h2
      rw [ccS_eq s t p i j (by omega)] at hg
      rw [he1]
      calc (Sf s t p (i + 1) j).score + p.soft_clipping_score
          ≤ (rowSuff s t p i).1.score := hg
        _ < (rowTemp s t p i).score := hc
    · rw [he1]
      show NEGATIVE_INF < (rowTemp s t p i).score
      omega
  · exfalso
    rw [if_neg hc] at he1
    rcases rowSuff_mov s t p i with h4 | h4
    · exact hm1 (by rw [he1]; exact h4)
    · exact hm2 (by rw [he1]; exact h4)

/-! ### Interior cell helpers -/

theorem Sf_int_smax (s t : List ℕ) (p : Scoring) (i j : ℕ) (h1 : 1 ≤ i) (h2 : 1 ≤ j)
    (h3 : j < t.length) :
    Sf s t p i j =
      smax4 p (If s t p i j).score (Df s t p i j).score (Mf s t p i j).score
        (if s.getD (i - 1) 0 = t.getD (j - 1) 0 then Moves.MATCH else Moves.SUBS) := by
  obtain ⟨i2, rfl⟩ : ∃ i2, i = i2 + 1 := ⟨i - 1, by omega⟩
  obtain ⟨k, rfl⟩ : ∃ k, j = k + 1 := ⟨j - 1, by omega⟩
  exact Sf_rec_int s t p i2 k h3

theorem Sf_int_ge_sc (s t : List ℕ) (p : Scoring) (i j : ℕ) (h1 : 1 ≤ i) (h2 : 1 ≤ j)
    (h3 : j < t.length) : p.soft_clipping_score ≤ (Sf s t p i j).score := by
  rw [Sf_int_smax s t p i j h1 h2 h3]
  exact le_smax4_P _ _ _ _ _

theorem Sf_int_ge_I (s t : List ℕ) (p : Scoring) (i j : ℕ) (h1 : 1 ≤ i) (h2 : 1 ≤ j)
    (h3 : j < t.length) : (If s t p i j).score ≤ (Sf s t p i j).score := by
  rw [Sf_int_smax s t p i j h1 h2 h3]
  exact le_smax4_I _ _ _ _ _

/-! ### What the move stored in a `Score` cell says about the cell -/

theorem S_mov_match (s t : List ℕ) (p : Scoring) (i j : ℕ) (hj : j ≤ t.length)
    (hm : (Sf s t p i j).mov = Moves.MATCH) :
    1 ≤ i ∧ 1 ≤ j ∧ (Sf s t p i j).score = (Mf s t p i j).score ∧
      s.getD (i - 1) 0 = t.getD (j - 1) 0 := by
  cases i with
  | zero =>
    exfalso
    rcases Nat.eq_zero_or_pos j with h0 | h1
    · subst h0; rw [Sf_col0] at hm; simp at hm
    · rw [Sf_zero s t p j hj] at hm
      rcases row0S_cases p j h1 with h4 | h4 <;> rw [h4] at hm <;> simp at hm
  | succ i =>
    cases j with
    | zero => exfalso; rw [Sf_succ_zero] at hm; simp at hm
    | succ k =>
      by_cases hfin : k + 1 = t.length
      · have htn : 1 ≤ t.length := by omega
        rw [hfin] at hm ⊢
        obtain ⟨he, _, _, _⟩ := Sfin_temp s t p i htn
          (by rw [hm]; simp) (by rw [hm]; simp)
        rw [he] at hm ⊢
        unfold rowTemp at hm ⊢
        have h4 := smax4_mov_tag p _ _ _ _ (Or.inl hm)
        rw [h4] at hm ⊢
        refine ⟨by omega, by omega, rfl, ?_⟩
        simp only [] at hm
        unfold rowTag at hm
        by_cases hxy : s.getD i 0 = t.getD (t.length - 1) 0
        · exact hxy
        · rw [if_neg hxy] at hm; simp at hm
      · have hint : k + 1 < t.length := by omega
        have he := Sf_rec_int s t p i k hint
        rw [he] at hm ⊢
        have h4 := smax4_mov_tag p _ _ _ _ (Or.inl hm)
        rw [h4] at hm ⊢
        refine ⟨by omega, by omega, rfl, ?_⟩
        simp only [] at hm
        by_cases hxy : s.getD i 0 = t.getD k 0
        · exact hxy
        · rw [if_neg hxy] at hm; simp at hm

theorem S_mov_subs (s t : List ℕ) (p : Scoring) (i j : ℕ) (hj : j ≤ t.length)
    (hm : (Sf s t p i j).mov = Moves.SUBS) :
    1 ≤ i ∧ 1 ≤ j ∧ (Sf s t p i j).score = (Mf s t p i j).score ∧
      ¬ (s.getD (i - 1) 0 = t.getD (j - 1) 0) := by
  cases i with
  | zero =>
    exfalso
    rcases Nat.eq_zero_or_pos j with h0 | h1
    · subst h0; rw [Sf_col0] at hm; simp at hm
    · rw [Sf_zero s t p j hj] at hm
      rcases row0S_cases p j h1 with h4 | h4 <;> rw [h4] at hm <;> simp at hm
  | succ i =>
    cases j with
    | zero => exfalso; rw [Sf_succ_zero] at hm; simp at hm
    | succ k =>
      by_cases hfin : k + 1 = t.length
      · have htn : 1 ≤ t.length := by omega
        rw [hfin] at hm ⊢
        obtain ⟨he, _, _, _⟩ := Sfin_temp s t p i htn
          (by rw [hm]; simp) (by rw [hm]; simp)
        rw [he] at hm ⊢
        unfold rowTemp at hm ⊢
        have h4 := smax4_mov_tag p _ _ _ _ (Or.inr hm)
        rw [h4] at hm ⊢
        refine ⟨by omega, by omega, rfl, ?_⟩
        simp only [] at hm
        unfold rowTag at hm
        by_cases hxy : s.getD i 0 = t.getD (t.length - 1) 0
        · rw [if_pos hxy] at hm; simp at hm
        · exact hxy
      · have hint : k + 1 < t.length := by omega
        have he := Sf_rec_int s t p i k hint
        rw [he] at hm ⊢
        have h4 := smax4_mov_tag p _ _ _ _ (Or.inr hm)
        rw [h4] at hm ⊢
        refine ⟨by omega, by omega, rfl, ?_⟩
        simp only [] at hm
        by_cases hxy : s.getD i 0 = t.getD k 0
        · rw [if_pos hxy] at hm; simp at hm
        · exact hxy

theorem S_mov_insert (s t : List ℕ) (p : Scoring) (i j : ℕ) (hj : j ≤ t.length)
    (hm : (Sf s t p i j).mov = Moves.INSERT) :
    1 ≤ i ∧ 1 ≤ j ∧ (Sf s t p i j).score = (If s t p i j).score := by
  cases i with
  | zero =>
    exfalso
    rcases Nat.eq_zero_or_pos j with h0 | h1
    · subst h0; rw [Sf_col0] at hm; simp at hm
    · rw [Sf_zero s t p j hj] at hm
      rcases row0S_cases p j h1 with h4 | h4 <;> rw [h4] at hm <;> simp at hm
  | succ i =>
    cases j with
    | zero => exfalso; rw [Sf_succ_zero] at hm; simp at hm
    | succ k =>
      by_cases hfin : k + 1 = t.length
      · have htn : 1 ≤ t.length := by omega
        rw [hfin] at hm ⊢
        obtain ⟨he, _, _, _⟩ := Sfin_temp s t p i htn
          (by rw [hm]; simp) (by rw [hm]; simp)
        rw [he] at hm ⊢
        unfold rowTemp at hm ⊢
        have h4 := smax4_mov_insert p _ _ _ _ (rowTag_cases s t p i) hm
        rw [h4]
        exact ⟨by omega, by omega, rfl⟩
      · have hint : k + 1 < t.length := by omega
        have he := Sf_rec_int s t p i k hint
        rw [he] at hm ⊢
        have h4 := smax4_mov_insert p _ _ _ _
          (by split <;> simp) hm
        rw [h4]
        exact ⟨by omega, by omega, rfl⟩

theorem S_mov_delete (s t : List ℕ) (p : Scoring) (i j : ℕ) (hj : j ≤ t.length)
    (hm : (Sf s t p i j).mov = Moves.DELETE) :
    1 ≤ j ∧ (Sf s t p i j).score = (Df s t p i j).score := by
  cases i with
  | zero =>
    rcases Nat.eq_zero_or_pos j with h0 | h1
    · exfalso; subst h0; rw [Sf_col0] at hm; simp at hm
    · refine ⟨h1, ?_⟩
      rw [Sf_zero s t p j hj] at hm ⊢
      rw [Df_zero s t p j hj]
      rcases row0S_cases p j h1 with h4 | h4 <;> rw [h4] at hm ⊢
      · unfold row0D
        rw [if_neg (by omega)]
      · exfalso; simp at hm
  | succ i =>
    cases j with
    | zero => exfalso; rw [Sf_succ_zero] at hm; simp at hm
    | succ k =>
      by_cases hfin : k + 1 = t.length
      · have htn : 1 ≤ t.length := by omega
        rw [hfin] at hm ⊢
        obtain ⟨he, _, _, _⟩ := Sfin_temp s t p i htn
          (by rw [hm]; simp) (by rw [hm]; simp)
        rw [he] at hm ⊢
        unfold rowTemp at hm ⊢
        have h4 := smax4_mov_delete p _ _ _ _ (rowTag_cases s t p i) hm
        rw [h4]
        exact ⟨by omega, rfl⟩
      · have hint : k + 1 < t.length := by omega
        have he := Sf_rec_int s t p i k hint
        rw [he] at hm ⊢
        have h4 := smax4_mov_delete p _ _ _ _
          (by split <;> simp) hm
        rw [h4]
        exact ⟨by omega, rfl⟩

theorem S_mov_prefix_clip (s t : List ℕ) (p : Scoring) (i j : ℕ) (hj : j ≤ t.length)
    (hm : (Sf s t p i j).mov = Moves.PREFIX_CLIP) :
    1 ≤ j ∧ (Sf s t p i j).score = p.soft_clipping_score := by
  cases i with
  | zero =>
    rcases Nat.eq_zero_or_pos j with h0 | h1
    · exfalso; subst h0; rw [Sf_col0] at hm; simp at hm
    · refine ⟨h1, ?_⟩
      rw [Sf_zero s t p j hj] at hm ⊢
      rcases row0S_cases p j h1 with h4 | h4 <;> rw [h4] at hm ⊢
      exfalso; simp at hm
  | succ i =>
    cases j with
    | zero => exfalso; rw [Sf_succ_zero] at hm; simp at hm
    | succ k =>
      by_cases hfin : k + 1 = t.length
      · have htn : 1 ≤ t.length := by omega
        rw [hfin] at hm ⊢
        obtain ⟨he, _, _, _⟩ := Sfin_temp s t p i htn
          (by rw [hm]; simp) (by rw [hm]; simp)
        rw [he] at hm ⊢
        unfold rowTemp at hm ⊢
        have h4 := smax4_mov_clip p _ _ _ _ (rowTag_cases s t p i) hm
        rw [h4]
        exact ⟨by omega, rfl⟩
      · have hint : k + 1 < t.length := by omega
        have he := Sf_rec_int s t p i k hint
        rw [he] at hm ⊢
        have h4 := smax4_mov_clip p _ _ _ _
          (by split <;> simp) hm
        rw [h4]
        exact ⟨by omega, rfl⟩

theorem S_mov_suffix_clip (s t : List ℕ) (p : Scoring) (i j : ℕ) (hj : j ≤ t.length)
    (hm : (Sf s t p i j).mov = Moves.SUFFIX_CLIP) :
    1 ≤ i ∧ j = t.length ∧ 1 ≤ t.length ∧
      ∃ js, 1 ≤ js ∧ js ≤ t.length - 1 ∧ clipf s t p i = t.length - js ∧
        (Sf s t p i j).score = (Sf s t p i js).score + p.soft_clipping_score ∧
        NEGATIVE_INF < (Sf s t p i j).score := by
  cases i with
  | zero =>
    exfalso
    rcases Nat.eq_zero_or_pos j with h0 | h1
    · subst h0; rw [Sf_col0] at hm; simp at hm
    · rw [Sf_zero s t p j hj] at hm
      rcases row0S_cases p j h1 with h4 | h4 <;> rw [h4] at hm <;> simp at hm
  | succ i =>
    cases j with
    | zero => exfalso; rw [Sf_succ_zero] at hm; simp at hm
    | succ k =>
      by_cases hfin : k + 1 = t.length
      · have htn : 1 ≤ t.length := by omega
        rw [hfin] at hm ⊢
        obtain ⟨js, a1, a2, a3, a4, a5⟩ := Sfin_suffix s t p i htn hm
        exact ⟨by omega, rfl, htn, js, a1, a2, a3, a4, a5⟩
      · exfalso
        have hint : k + 1 < t.length := by omega
        have he := Sf_rec_int s t p i k hint
        rw [he] at hm
        rcases smax4_mov_mem p (If s t p (i + 1) (k + 1)).score
            (Df s t p (i + 1) (k + 1)).score (Mf s t p (i + 1) (k + 1)).score
            (if s.getD i 0 = t.getD k 0 then Moves.MATCH else Moves.SUBS)
          with h4 | h4 | h4 | h4 <;> rw [hm] at h4
        · simp at h4
        · simp at h4
        · by_cases hxy : s.getD i 0 = t.getD k 0
          · rw [if_pos hxy] at h4; simp at h4
          · rw [if_neg hxy] at h4; simp at h4
        · simp at h4

theorem S_mov_none (s t : List ℕ) (p : Scoring) (i j : ℕ) (hj : j ≤ t.length)
    (hm : (Sf s t p i j).mov = Moves.NONE) :
    (Sf s t p i j).score = 0 ∨
      (1 ≤ i ∧ j = t.length ∧ 1 ≤ t.length ∧ Sf s t p i j = dCell) := by
  cases i with
  | zero =>
    rcases Nat.eq_zero_or_pos j with h0 | h1
    · subst h0; rw [Sf_col0]; exact Or.inl rfl
    · exfalso
      rw [Sf_zero s t p j hj] at hm
      rcases row0S_cases p j h1 with h4 | h4 <;> rw [h4] at hm <;> simp at hm
  | succ i =>
    cases j with
    | zero => rw [Sf_succ_zero]; exact Or.inl rfl
    | succ k =>
      by_cases hfin : k + 1 = t.length
      · have htn : 1 ≤ t.length := by omega
        rw [hfin] at hm ⊢
        obtain ⟨he, _⟩ := Sfin_mov_none s t p i htn hm
        exact Or.inr ⟨by omega, rfl, htn, he⟩
      · exfalso
        have hint : k + 1 < t.length := by omega
        have he := Sf_rec_int s t p i k hint
        rw [he] at hm
        rcases smax4_mov_mem p (If s t p (i + 1) (k + 1)).score
            (Df s t p (i + 1) (k + 1)).score (Mf s t p (i + 1) (k + 1)).score
            (if s.getD i 0 = t.getD k 0 then Moves.MATCH else Moves.SUBS)
          with h4 | h4 | h4 | h4 <;> rw [hm] at h4
        · simp at h4
        · simp at h4
        · by_cases hxy : s.getD i 0 = t.getD k 0
          · rw [if_pos hxy] at h4; simp at h4
          · rw [if_neg hxy] at h4; simp at h4
        · simp at h4

/-! ### What the move stored in a gap cell says about the cell -/

theorem cellMax_right_ge (a b : Cell) (h : cellMax a b = b) : a.score ≤ b.score := by
  have h2 := cellMax_score a b
  rw [h] at h2
  calc a.score ≤ max a.score b.score := le_max_left _ _
    _ = b.score := h2.symm

theorem If_ge_cont (s t : List ℕ) (p : Scoring) (i j : ℕ) (h1 : 1 ≤ i) (h2 : 1 ≤ j)
    (h3 : j ≤ t.length) :
    (If s t p (i - 1) j).score + p.gap_unit_score ≤ (If s t p i j).score := by
  obtain ⟨i2, rfl⟩ : ∃ i2, i = i2 + 1 := ⟨i - 1, by omega⟩
  rw [If_rec s t p i2 j h2 h3]
  exact le_cellMax_left _ _

theorem If_ge_open (s t : List ℕ) (p : Scoring) (i j : ℕ) (h1 : 1 ≤ i) (h2 : 1 ≤ j)
    (h3 : j ≤ t.length) :
    (Sf s t p (i - 1) j).score + p.gap_inititation_score + p.gap_unit_score ≤
      (If s t p i j).score := by
  obtain ⟨i2, rfl⟩ : ∃ i2, i = i2 + 1 := ⟨i - 1, by omega⟩
  rw [If_rec s t p i2 j h2 h3]
  exact le_cellMax_right _ _

theorem If_mov_other (s t : List ℕ) (p : Scoring) (i j : ℕ) (h1 : 1 ≤ i) (h2 : 1 ≤ j)
    (h3 : j ≤ t.length) (hm : (If s t p i j).mov ≠ Moves.INSERT) :
    (If s t p i j).score =
        (Sf s t p (i - 1) j).score + p.gap_inititation_score + p.gap_unit_score ∧
      (Sf s t p (i - 1) j).mov = (If s t p i j).mov := by
  obtain ⟨i2, rfl⟩ : ∃ i2, i = i2 + 1 := ⟨i - 1, by omega⟩
  have he := If_rec s t p i2 j h2 h3
  rcases cellMax_cases
      (⟨(If s t p i2 j).score + p.gap_unit_score, Moves.INSERT⟩ : Cell)
      ⟨(Sf s t p i2 j).score + p.gap_inititation_score + p.gap_unit_score,
       (Sf s t p i2 j).mov⟩ with h4 | h4 <;> rw [h4] at he
  · exfalso
    rw [he] at hm
    exact hm rfl
  · rw [he]
    exact ⟨rfl, rfl⟩

theorem If_mov_insert_score (s t : List ℕ) (p : Scoring) (i j : ℕ) (h1 : 1 ≤ i)
    (h2 : 1 ≤ j) (h3 : j ≤ t.length) (hgi : p.gap_inititation_score ≤ 0)
    (hm : (If s t p i j).mov = Moves.INSERT) :
    (If s t p i j).score = (If s t p (i - 1) j).score + p.gap_unit_score := by
  obtain ⟨i2, rfl⟩ : ∃ i2, i = i2 + 1 := ⟨i - 1, by omega⟩
  have he := If_rec s t p i2 j h2 h3
  rcases cellMax_cases
      (⟨(If s t p i2 j).score + p.gap_unit_score, Moves.INSERT⟩ : Cell)
      ⟨(Sf s t p i2 j).score + p.gap_inititation_score + p.gap_unit_score,
       (Sf s t p i2 j).mov⟩ with h4 | h4
  · rw [h4] at he
    rw [he]
    rfl
  · have hge := cellMax_right_ge _ _ h4
    rw [h4] at he
    rw [he] at hm
    have hs : (Sf s t p i2 j).mov = Moves.INSERT := hm
    obtain ⟨_, _, hsc⟩ := S_mov_insert s t p i2 j h3 hs
    rw [he]
    show (Sf s t p i2 j).score + p.gap_inititation_score + p.gap_unit_score =
      (If s t p i2 j).score + p.gap_unit_score
    simp only [] at hge
    omega

theorem Df_ge_open (s t : List ℕ) (p : Scoring) (i j : ℕ) (h1 : 1 ≤ i) (h2 : 1 ≤ j)
    (h3 : j ≤ t.length) :
    (Sf s t p i (j - 1)).score + p.gap_inititation_score + p.gap_unit_score ≤
      (Df s t p i j).score := by
  obtain ⟨i2, rfl⟩ : ∃ i2, i = i2 + 1 := ⟨i - 1, by omega⟩
  obtain ⟨k, rfl⟩ : ∃ k, j = k + 1 := ⟨j - 1, by omega⟩
  rw [Df_rec s t p i2 k h3]
  exact le_cellMax_right _ _

theorem Df_mov_other (s t : List ℕ) (p : Scoring) (i j : ℕ) (h2 : 1 ≤ j)
    (h3 : j ≤ t.length) (hm : (Df s t p i j).mov ≠ Moves.DELETE) :
    (Df s t p i j).score =
        (Sf s t p i (j - 1)).score + p.gap_inititation_score + p.gap_unit_score ∧
      (Sf s t p i (j - 1)).mov = (Df s t p i j).mov := by
  cases i with
  | zero =>
    rw [Df_zero s t p j h3] at hm ⊢
    unfold row0D at hm ⊢
    rw [if_neg (by omega)] at hm ⊢
    by_cases hj1 : j = 1
    · subst hj1
      rw [Sf_col0]
      simp
    · exfalso
      rw [if_neg hj1] at hm
      exact hm rfl
  | succ i2 =>
    obtain ⟨k, rfl⟩ : ∃ k, j = k + 1 := ⟨j - 1, by omega⟩
    have he := Df_rec s t p i2 k h3
    rcases cellMax_cases
        (⟨(Df s t p (i2 + 1) k).score + p.gap_unit_score, Moves.DELETE⟩ : Cell)
        ⟨(Sf s t p (i2 + 1) k).score + p.gap_inititation_score + p.gap_unit_score,
         (Sf s t p (i2 + 1) k).mov⟩ with h4 | h4 <;> rw [h4] at he
    · exfalso
      rw [he] at hm
      exact hm rfl
    · rw [he]
      exact ⟨rfl, rfl⟩

theorem Df_mov_delete_score (s t : List ℕ) (p : Scoring) (i j : ℕ) (h2 : 1 ≤ j)
    (h3 : j ≤ t.length) (hgi : p.gap_inititation_score ≤ 0)
    (hm : (Df s t p i j).mov = Moves.DELETE) :
    (Df s t p i j).score = (Df s t p i (j - 1)).score + p.gap_unit_score := by
  cases i with
  | zero =>
    rw [Df_zero s t p j h3] at hm ⊢
    unfold row0D at hm ⊢
    rw [if_neg (by omega)] at hm ⊢
    by_cases hj1 : j = 1
    · exfalso
      subst hj1
      rw [if_pos rfl] at hm
      simp at hm
    · rw [if_neg hj1] at hm
      rw [Df_zero s t p (j - 1) (by omega)]
      unfold row0D
      rw [if_neg (show ¬ (j - 1 = 0) by omega)]
      show p.gap_inititation_score + p.gap_unit_score * (j : Int) =
        p.gap_inititation_score + p.gap_unit_score * ((j - 1 : ℕ) : Int) +
          p.gap_unit_score
      have hc : ((j - 1 : ℕ) : Int) = (j : Int) - 1 := by
        push_cast [Nat.cast_sub (by omega : 1 ≤ j)]
        ring
      rw [hc]
      ring
  | succ i2 =>
    obtain ⟨k, rfl⟩ : ∃ k, j = k + 1 := ⟨j - 1, by omega⟩
    have he := Df_rec s t p i2 k h3
    rcases cellMax_cases
        (⟨(Df s t p (i2 + 1) k).score + p.gap_unit_score, Moves.DELETE⟩ : Cell)
        ⟨(Sf s t p (i2 + 1) k).score + p.gap_inititation_score + p.gap_unit_score,
         (Sf s t p (i2 + 1) k).mov⟩ with h4 | h4
    · rw [h4] at he
      rw [he]
      rfl
    · have hge := cellMax_right_ge _ _ h4
      rw [h4] at he
      rw [he] at hm
      have hs : (Sf s t p (i2 + 1) k).mov = Moves.DELETE := hm
      have hk1 : 1 ≤ k := by
        by_contra hk0
        have hk : k = 0 := by omega
        rw [hk, Sf_col0] at hs
        simp at hs
      obtain ⟨_, hsc⟩ := S_mov_delete s t p (i2 + 1) k (by omega) hs
      rw [he]
      show (Sf s t p (i2 + 1) k).score + p.gap_inititation_score + p.gap_unit_score =
        (Df s t p (i2 + 1) k).score + p.gap_unit_score
      simp only [] at hge
      omega

/-! ### The best-row scan -/

theorem bestFold_ge (s t : List ℕ) (p : Scoring) (l : List ℕ) (init : Int × Option ℕ) :
    init.1 ≤ (l.foldl (bestStep s t p) init).1 ∧
      ∀ i ∈ l, (Sf s t p i t.length).score ≤ (l.foldl (bestStep s t p) init).1 := by
  induction l generalizing init with
  | nil => exact ⟨le_refl _, by simp⟩
  | cons a l ih =>
    rw [List.foldl_cons]
    obtain ⟨ih1, ih2⟩ := ih (bestStep s t p init a)
    have hstep : init.1 ≤ (bestStep s t p init a).1 := by
      unfold bestStep
      split
      · simp only []
        omega
      · exact le_refl _
    have hstepa : (Sf s t p a t.length).score ≤ (bestStep s t p init a).1 := by
      unfold bestStep
      split
      · exact le_refl _
      · rename_i h
        omega
    refine ⟨le_trans hstep ih1, ?_⟩
    intro i hi
    rcases List.mem_cons.mp hi with rfl | hi2
    · exact le_trans hstepa ih1
    · exact ih2 i hi2

theorem bestFold_some (s t : List ℕ) (p : Scoring) (l : List ℕ)
    (init : Int × Option ℕ) :
    ((l.foldl (bestStep s t p) init).2 = init.2 ∧
      (l.foldl (bestStep s t p) init).1 = init.1) ∨
    (∃ i ∈ l, (l.foldl (bestStep s t p) init).2 = some i ∧
      (l.foldl (bestStep s t p) init).1 = (Sf s t p i t.length).score ∧
      init.1 < (l.foldl (bestStep s t p) init).1) := by
  induction l generalizing init with
  | nil => exact Or.inl ⟨rfl, rfl⟩
  | cons a l ih =>
    rw [List.foldl_cons]
    have hstep : init.1 ≤ (bestStep s t p init a).1 := by
      unfold bestStep
      split
      · simp only []
        omega
      · exact le_refl _
    rcases ih (bestStep s t p init a) with ⟨ih1, ih2⟩ | ⟨i, hi, e1, e2, e3⟩
    · have hb : bestStep s t p init a =
          if init.1 < (Sf s t p a t.length).score
          then ((Sf s t p a t.length).score, some a) else init := rfl
      by_cases hc : init.1 < (Sf s t p a t.length).score
      · rw [hb, if_pos hc] at ih1 ih2 ⊢
        simp only [] at ih1 ih2
        exact Or.inr ⟨a, List.mem_cons_self a l, ih1, ih2, by omega⟩
      · rw [hb, if_neg hc] at ih1 ih2 ⊢
        exact Or.inl ⟨ih1, ih2⟩
    · exact Or.inr ⟨i, List.mem_cons_of_mem a hi, e1, e2, by omega⟩

theorem bestScan_some (s t : List ℕ) (p : Scoring) (i0 : ℕ)
    (h : (bestScan s t p).2 = some i0) :
    i0 ≤ s.length ∧ (bestScan s t p).1 = (Sf s t p i0 t.length).score ∧
      NEGATIVE_INF < (Sf s t p i0 t.length).score ∧
      ∀ i, i ≤ s.length →
        (Sf s t p i t.length).score ≤ (Sf s t p i0 t.length).score := by
  unfold bestScan at h ⊢
  rcases bestFold_some s t p (List.range (s.length + 1)) (NEGATIVE_INF, none)
    with ⟨e1, _⟩ | ⟨i, hi, e1, e2, e3⟩
  · rw [e1] at h
    simp at h
  · rw [e1] at h
    have hii : i = i0 := by
      injection h
    subst hii
    have hmem : i ≤ s.length := by
      have := List.mem_range.mp hi
      omega
    obtain ⟨_, hge⟩ := bestFold_ge s t p (List.range (s.length + 1)) (NEGATIVE_INF, none)
    refine ⟨hmem, e2, by rw [e2] at e3; exact e3, ?_⟩
    intro i2 hi2
    have := hge i2 (List.mem_range.mpr (by omega))
    rw [e2] at this
    exact this

/-! ### Remaining facts about the settled final-column cell -/

theorem Sfin_ge_temp (s t : List ℕ) (p : Scoring) (i : ℕ) (h : 1 ≤ t.length) :
    (rowTemp s t p i).score ≤ (Sf s t p (i + 1) t.length).score := by
  have he := congrArg Prod.fst (Sfin_eq s t p i h)
  simp only [] at he
  rw [he]
  split
  · exact le_refl _
  · rename_i hc
    omega

theorem Sfin_ge_neg (s t : List ℕ) (p : Scoring) (i : ℕ) (h : 1 ≤ t.length) :
    NEGATIVE_INF ≤ (Sf s t p (i + 1) t.length).score := by
  have he := congrArg Prod.fst (Sfin_eq s t p i h)
  simp only [] at he
  rw [he]
  have hneg := suffFold_ge_neg p t.length
    (colCells (s.getD i 0) t p (rowsF s t p i)) (t.length - 1)
  split
  · rename_i hc
    show NEGATIVE_INF ≤ (rowTemp s t p i).score
    unfold rowSuff at hc
    omega
  · show NEGATIVE_INF ≤ (rowSuff s t p i).1.score
    unfold rowSuff
    exact hneg

/-! ### Folded maxima over candidate lists -/

theorem foldl_max_ge_init (l : List Int) (a : Int) : a ≤ l.foldl max a := by
  induction l generalizing a with
  | nil => exact le_refl _
  | cons x l ih =>
    rw [List.foldl_cons]
    exact le_trans (le_max_left a x) (ih (max a x))

theorem foldl_max_ge_mem (l : List Int) (a x : Int) (h : x ∈ l) :
    x ≤ l.foldl max a := by
  induction l generalizing a with
  | nil => simp at h
  | cons y l ih =>
    rw [List.foldl_cons]
    rcases List.mem_cons.mp h with rfl | h2
    · exact le_trans (le_max_right a x) (foldl_max_ge_init l (max a x))
    · exact ih (max a y) h2

theorem foldl_max_cases (l : List Int) (a : Int) :
    l.foldl max a = a ∨ l.foldl max a ∈ l := by
  induction l generalizing a with
  | nil => exact Or.inl rfl
  | cons y l ih =>
    rw [List.foldl_cons]
    rcases ih (max a y) with h | h
    · rcases max_cases a y with ⟨h2, _⟩ | ⟨h2, _⟩
      · exact Or.inl (by rw [h, h2])
      · refine Or.inr (List.mem_cons.mpr (Or.inl ?_))
        rw [h, h2]
    · exact Or.inr (List.mem_cons.mpr (Or.inr h))

/-- The candidate values the Rust code compares while settling the
final-column `Score` cell of row `i`: the three local matrices, the
soft-clip (PREFIX_CLIP) value, and the suffix-clip candidates
`Score[i][j'] + soft_clip` over every interior column `j'`. -/
def finalCands (s t : List ℕ) (p : Scoring) (i : ℕ) : List Int :=
  [(If s t p i t.length).score, (Df s t p i t.length).score,
   (Mf s t p i t.length).score, p.soft_clipping_score] ++
  (List.range (t.length - 1)).map
    (fun k => (Sf s t p i (k + 1)).score + p.soft_clipping_score)

/-- Claim C1 (amended).  For every non-empty `s`, `t`, every policy and
every row `i` in `1..|s|`, the final-column cell `Score[i][n]` equals
the maximum of the `NEGATIVE_INF` initialization value and all the
candidates (the local `Insert`/`Delete`/`Match` cells, the soft-clip
value, and `Score[i][j'] + soft_clip` over the interior columns
`j'`); when the cell records a suffix clip, `ClipLength[i]` holds
`n - j'` for the winning interior column `j'` (the number of clipped
query symbols — not `n - 1 - j'` as originally claimed), and
otherwise `ClipLength[i]` is `0`. -/
theorem C1_theorem (s t : List ℕ) (p : Scoring) (i : ℕ)
    (_hs : s ≠ []) (ht : t ≠ []) (h1 : 1 ≤ i) (h2 : i ≤ s.length) :
    (Sf s t p i t.length).score = (finalCands s t p i).foldl max NEGATIVE_INF ∧
    ((Sf s t p i t.length).mov = Moves.SUFFIX_CLIP →
      ∃ js, 1 ≤ js ∧ js ≤ t.length - 1 ∧ clipf s t p i = t.length - js ∧
        (Sf s t p i t.length).score =
          (Sf s t p i js).score + p.soft_clipping_score) ∧
    ((Sf s t p i t.length).mov ≠ Moves.SUFFIX_CLIP → clipf s t p i = 0) := by
  have htn : 1 ≤ t.length := by
    cases t with
    | nil => exact absurd rfl ht
    | cons a l => simp
  obtain ⟨i2, rfl⟩ : ∃ i2, i = i2 + 1 := ⟨i - 1, by omega⟩
  refine ⟨?_, ?_, ?_⟩
  · -- score equality with the folded maximum
    have hub : ∀ x ∈ finalCands s t p (i2 + 1),
        x ≤ (Sf s t p (i2 + 1) t.length).score := by
      intro x hx
      unfold finalCands at hx
      rcases List.mem_append.mp hx with hx | hx
      · have htemp := Sfin_ge_temp s t p i2 htn
        have hI := le_smax4_I p (If s t p (i2 + 1) t.length).score
          (Df s t p (i2 + 1) t.length).score (Mf s t p (i2 + 1) t.length).score
          (rowTag s t p i2)
        have hD := le_smax4_D p (If s t p (i2 + 1) t.length).score
          (Df s t p (i2 + 1) t.length).score (Mf s t p (i2 + 1) t.length).score
          (rowTag s t p i2)
        have hM := le_smax4_M p (If s t p (i2 + 1) t.length).score
          (Df s t p (i2 + 1) t.length).score (Mf s t p (i2 + 1) t.length).score
          (rowTag s t p i2)
        have hP := le_smax4_P p (If s t p (i2 + 1) t.length).score
          (Df s t p (i2 + 1) t.length).score (Mf s t p (i2 + 1) t.length).score
          (rowTag s t p i2)
        have : (rowTemp s t p i2).score =
            (smax4 p (If s t p (i2 + 1) t.length).score
              (Df s t p (i2 + 1) t.length).score (Mf s t p (i2 + 1) t.length).score
              (rowTag s t p i2)).score := rfl
        simp only [List.mem_cons] at hx
        rcases hx with rfl | rfl | rfl | rfl | hx
        · omega
        · omega
        · omega
        · omega
        · simp at hx
      · obtain ⟨k, hk, rfl⟩ := List.mem_map.mp hx
        have hk2 := List.mem_range.mp hk
        exact Sfin_ge_cand s t p i2 (k + 1) htn (by omega) (by omega)
    have hlb : NEGATIVE_INF ≤ (Sf s t p (i2 + 1) t.length).score :=
      Sfin_ge_neg s t p i2 htn
    have hfle : (finalCands s t p (i2 + 1)).foldl max NEGATIVE_INF ≤
        (Sf s t p (i2 + 1) t.length).score := by
      rcases foldl_max_cases (finalCands s t p (i2 + 1)) NEGATIVE_INF with h | h
      · rw [h]; exact hlb
      · exact hub _ h
    have hfge : (Sf s t p (i2 + 1) t.length).score ≤
        (finalCands s t p (i2 + 1)).foldl max NEGATIVE_INF := by
      by_cases hnone : (Sf s t p (i2 + 1) t.length).mov = Moves.NONE
      · obtain ⟨he, _⟩ := Sfin_mov_none s t p i2 htn hnone
        rw [he]
        exact foldl_max_ge_init _ _
      · by_cases hsuf : (Sf s t p (i2 + 1) t.length).mov = Moves.SUFFIX_CLIP
        · obtain ⟨js, a1, a2, _, a4, _⟩ := Sfin_suffix s t p i2 htn hsuf
          rw [a4]
          apply foldl_max_ge_mem
          unfold finalCands
          apply List.mem_append.mpr
          right
          apply List.mem_map.mpr
          exact ⟨js - 1, List.mem_range.mpr (by omega),
            by rw [show js - 1 + 1 = js from by omega]⟩
        · obtain ⟨he, _, _, _⟩ := Sfin_temp s t p i2 htn hnone hsuf
          rw [he]
          have hsc : (rowTemp s t p i2).score =
              max (max (If s t p (i2 + 1) t.length).score
                (Df s t p (i2 + 1) t.length).score)
                (max (Mf s t p (i2 + 1) t.length).score p.soft_clipping_score) :=
            smax4_score p _ _ _ _
          rw [hsc]
          have m1 : (If s t p (i2 + 1) t.length).score ≤
              (finalCands s t p (i2 + 1)).foldl max NEGATIVE_INF := by
            apply foldl_max_ge_mem
            unfold finalCands
            simp
          have m2 : (Df s t p (i2 + 1) t.length).score ≤
              (finalCands s t p (i2 + 1)).foldl max NEGATIVE_INF := by
            apply foldl_max_ge_mem
            unfold finalCands
            simp
          have m3 : (Mf s t p (i2 + 1) t.length).score ≤
              (finalCands s t p (i2 + 1)).foldl max NEGATIVE_INF := by
            apply foldl_max_ge_mem
            unfold finalCands
            simp
          have m4 : p.soft_clipping_score ≤
              (finalCands s t p (i2 + 1)).foldl max NEGATIVE_INF := by
            apply foldl_max_ge_mem
            unfold finalCands
            simp
          omega
    omega
  · intro hsuf
    obtain ⟨js, a1, a2, a3, a4, _⟩ := Sfin_suffix s t p i2 htn hsuf
    exact ⟨js, a1, a2, a3, a4⟩
  · intro hnsuf
    by_cases hnone : (Sf s t p (i2 + 1) t.length).mov = Moves.NONE
    · exact (Sfin_mov_none s t p i2 htn hnone).2
    · exact (Sfin_temp s t p i2 htn hnone hnsuf).2.1

/-- Claim C1, witness: the amended characterization evaluated on the
suffix-clip example `s = "CG"`, `t = "GA"`. -/
theorem C1_witness :
    (Sf [67, 71] [71, 65] ⟨-5, -1, 2, -2, -5⟩ 2 2).score =
        (finalCands [67, 71] [71, 65] ⟨-5, -1, 2, -2, -5⟩ 2).foldl max
          NEGATIVE_INF ∧
      ((Sf [67, 71] [71, 65] ⟨-5, -1, 2, -2, -5⟩ 2 2).mov = Moves.SUFFIX_CLIP →
        ∃ js, 1 ≤ js ∧ js ≤ 1 ∧
          clipf [67, 71] [71, 65] ⟨-5, -1, 2, -2, -5⟩ 2 = 2 - js ∧
          (Sf [67, 71] [71, 65] ⟨-5, -1, 2, -2, -5⟩ 2 2).score =
            (Sf [67, 71] [71, 65] ⟨-5, -1, 2, -2, -5⟩ 2 js).score + -5) ∧
      ((Sf [67, 71] [71, 65] ⟨-5, -1, 2, -2, -5⟩ 2 2).mov ≠ Moves.SUFFIX_CLIP →
        clipf [67, 71] [71, 65] ⟨-5, -1, 2, -2, -5⟩ 2 = 0) :=
  C1_theorem [67, 71] [71, 65] ⟨-5, -1, 2, -2, -5⟩ 2 (by simp) (by simp)
    (by omega) (by simp)

/-- Claim C1, counterexample to the original wording: on `s = "CG"`,
`t = "GA"` with the suffix-clip test policy, row `2` ends in a suffix
clip won by interior column `j' = 1`, and the recorded clip length is
`n - j' = 1`, not `n - 1 - j' = 0` as the claim's formula states. -/
theorem C1_counterexample :
    Sf [67, 71] [71, 65] ⟨-5, -1, 2, -2, -5⟩ 2 2 =
        ⟨-3, Moves.SUFFIX_CLIP⟩ ∧
      (Sf [67, 71] [71, 65] ⟨-5, -1, 2, -2, -5⟩ 2 1).score + -5 = -3 ∧
      clipf [67, 71] [71, 65] ⟨-5, -1, 2, -2, -5⟩ 2 = 1 ∧
      ¬ clipf [67, 71] [71, 65] ⟨-5, -1, 2, -2, -5⟩ 2 = 2 - 1 - 1 := by
  refine ⟨?_, ?_, ?_, ?_⟩ <;> decide

/-- Claim C3 (amended).  Ties are resolved by the derived lexicographic
order on `(score, move)` with moves ranked in declaration order
`MATCH < SUBS < INSERT < DELETE < PREFIX_CLIP < SUFFIX_CLIP < NONE`,
`max` preferring the larger move: on an `Insert` tie the continuation's
`INSERT` tag is kept only when the predecessor's move ranks below
`INSERT` (i.e. is `MATCH`/`SUBS`); and in a `Score` cell whose gap and
match candidates are all at most the soft-clip value, the
`PREFIX_CLIP` tag is stored (the clip wins all ties, contrary to the
original claim). -/
theorem C3_theorem (s t : List ℕ) (p : Scoring) (i j : ℕ) :
    (1 ≤ j → j ≤ t.length →
      (If s t p i j).score + p.gap_unit_score =
        (Sf s t p i j).score + p.gap_inititation_score + p.gap_unit_score →
      If s t p (i + 1) j =
        (if movRank (Sf s t p i j).mov < movRank Moves.INSERT
         then ⟨(If s t p i j).score + p.gap_unit_score, Moves.INSERT⟩
         else ⟨(Sf s t p i j).score + p.gap_inititation_score + p.gap_unit_score,
               (Sf s t p i j).mov⟩)) ∧
    (1 ≤ i → 1 ≤ j → j < t.length →
      (If s t p i j).score ≤ p.soft_clipping_score →
      (Df s t p i j).score ≤ p.soft_clipping_score →
      (Mf s t p i j).score ≤ p.soft_clipping_score →
      Sf s t p i j = ⟨p.soft_clipping_score, Moves.PREFIX_CLIP⟩) := by
  constructor
  · intro h1 h2 htie
    rw [If_rec s t p i j h1 h2]
    rw [cellMax_tie _ _ (by simp only []; omega)]
  · intro h1 h2 h3 hI hD hM
    rw [Sf_int_smax s t p i j h1 h2 h3]
    exact smax4_clip_of_ties p _ _ _ _
      (by split
          · exact Or.inl rfl
          · exact Or.inr rfl) hI hD hM

/-- Claim C3, witness: the clip-wins-ties rule applied at cell `(1, 1)`
of the counterexample instance, where all other candidates are at most
the soft-clip value `-6`. -/
theorem C3_witness :
    Sf [1] [1, 1] ⟨-5, -1, -7, -7, -6⟩ 1 1 = ⟨-6, Moves.PREFIX_CLIP⟩ :=
  (C3_theorem [1] [1, 1] ⟨-5, -1, -7, -7, -6⟩ 1 1).2 (by omega) (by omega)
    (by simp) (by decide) (by decide) (by decide)

/-- Claim C3, counterexample to the original wording: at cell `(1, 1)`
of `s = [1]`, `t = [1, 1]` with policy `(-5, -1, -7, -7, -6)`, the
`Delete` gap candidate ties the `PREFIX_CLIP` candidate at `-6`, yet
the stored move is `PREFIX_CLIP`, not the gap candidate's tag. -/
theorem C3_counterexample :
    (Df [1] [1, 1] ⟨-5, -1, -7, -7, -6⟩ 1 1).score = -6 ∧
      (Sf [1] [1, 1] ⟨-5, -1, -7, -7, -6⟩ 1 1).score = -6 ∧
      (Sf [1] [1, 1] ⟨-5, -1, -7, -7, -6⟩ 1 1).mov = Moves.PREFIX_CLIP ∧
      ¬ (Sf [1] [1, 1] ⟨-5, -1, -7, -7, -6⟩ 1 1).mov = Moves.DELETE := by
  refine ⟨?_, ?_, ?_, ?_⟩ <;> decide

/-- Claim C4 (amended).  After initialization, for every row
`i ∈ 1..|s|` the column-0 cells are
`Insert[i][0] = gap_init + gap_unit` (one unit, independent of `i`,
matching the code comment "could start alignment anywhere") and
`Score[i][0] = 0`, both tagged `NONE` — not
`gap_init + gap_unit * i` as the original claim states. -/
theorem C4_theorem (s t : List ℕ) (p : Scoring) (i : ℕ) (h1 : 1 ≤ i)
    (_h2 : i ≤ s.length) :
    If s t p i 0 = ⟨p.gap_inititation_score + p.gap_unit_score, Moves.NONE⟩ ∧
      Sf s t p i 0 = ⟨0, Moves.NONE⟩ :=
  ⟨If_col0 s t p i h1, Sf_col0 s t p i⟩

/-- Claim C4, witness: the amended column-0 facts at row `2` of a
two-row instance. -/
theorem C4_witness :
    If [65, 65] [65] ⟨-5, -1, 1, -1, -100⟩ 2 0 = ⟨-6, Moves.NONE⟩ ∧
      Sf [65, 65] [65] ⟨-5, -1, 1, -1, -100⟩ 2 0 = ⟨0, Moves.NONE⟩ :=
  C4_theorem [65, 65] [65] ⟨-5, -1, 1, -1, -100⟩ 2 (by omega) (by simp)

/-- Claim C4, counterexample to the original wording: at row `i = 2`
with `gap_init = -5`, `gap_unit = -1`, the code stores
`Insert[2][0].score = -6 ≠ -7 = gap_init + gap_unit * 2`, and
`Score[2][0].score = 0 ≠ Insert[2][0].score`. -/
theorem C4_counterexample :
    (If [65, 65] [65] ⟨-5, -1, 1, -1, -100⟩ 2 0).score = -6 ∧
      (Sf [65, 65] [65] ⟨-5, -1, 1, -1, -100⟩ 2 0).score = 0 ∧
      ¬ (If [65, 65] [65] ⟨-5, -1, 1, -1, -100⟩ 2 0).score = -5 + -1 * 2 ∧
      ¬ (Sf [65, 65] [65] ⟨-5, -1, 1, -1, -100⟩ 2 0).score =
          (If [65, 65] [65] ⟨-5, -1, 1, -1, -100⟩ 2 0).score := by
  refine ⟨?_, ?_, ?_, ?_⟩ <;> decide

/-! ### The arithmetic performed by initialization and fill (for C9) -/

/-- The intermediate arithmetic results (sums, and the row-0 products)
the Rust code computes while filling cell `(i, j)`, `i, j ≥ 1`:  the
two `Insert` candidates (with the intermediate left-associated sum),
the two `Delete` candidates, the `Match` sum, and — for interior
columns — the suffix-clip candidate. -/
def cellArith (s t : List ℕ) (p : Scoring) (i j : ℕ) : List Int :=
  [(If s t p (i - 1) j).score + p.gap_unit_score,
   (Sf s t p (i - 1) j).score + p.gap_inititation_score,
   (Sf s t p (i - 1) j).score + p.gap_inititation_score + p.gap_unit_score,
   (Df s t p i (j - 1)).score + p.gap_unit_score,
   (Sf s t p i (j - 1)).score + p.gap_inititation_score,
   (Sf s t p i (j - 1)).score + p.gap_inititation_score + p.gap_unit_score,
   (Sf s t p (i - 1) (j - 1)).score +
     (if s.getD (i - 1) 0 = t.getD (j - 1) 0
      then p.match_score else p.mismatch_score)] ++
  (if j < t.length then [(Sf s t p i j).score + p.soft_clipping_score] else [])

/-- Every signed-integer arithmetic result of matrix initialization and
forward fill: the row-0 products `gap_unit * j` and sums
`gap_init + gap_unit * j`, the column-0 sum `gap_init + gap_unit`, and
the per-cell sums of the core loops. -/
def fillArith (s t : List ℕ) (p : Scoring) : List Int :=
  ((List.range t.length).map
    (fun k => [p.gap_unit_score * ((k + 1 : ℕ) : Int),
               p.gap_inititation_score + p.gap_unit_score * ((k + 1 : ℕ) : Int)])).flatten
  ++ [p.gap_inititation_score + p.gap_unit_score]
  ++ ((List.range s.length).map
    (fun i2 => ((List.range t.length).map
      (fun k => cellArith s t p (i2 + 1) (k + 1))).flatten)).flatten

/-- Score bounds on a cell: within `2 n K` of the interval
`[NEGATIVE_INF, 0]`. -/
def inBnd (K : Int) (n : ℕ) (c : Cell) : Prop :=
  -1073741824 - 2 * (n : Int) * K ≤ c.score ∧ c.score ≤ 2 * (n : Int) * K

theorem bnd_step (K : Int) (n : ℕ) :
    2 * ((n + 1 : ℕ) : Int) * K = 2 * (n : Int) * K + 2 * K := by
  push_cast
  ring

theorem bnd_mono (K : Int) (hK : 0 ≤ K) (m n : ℕ) (hmn : m ≤ n) :
    2 * (m : Int) * K ≤ 2 * (n : Int) * K := by
  have h : (m : Int) ≤ n := by exact_mod_cast hmn
  nlinarith

theorem bnd_nonneg (K : Int) (hK : 0 ≤ K) (n : ℕ) : 0 ≤ 2 * (n : Int) * K := by
  have h : (0 : Int) ≤ n := Int.ofNat_nonneg n
  nlinarith

theorem max_bnd (a b lo hi : Int) (ha1 : lo ≤ a) (ha2 : a ≤ hi) (hb1 : lo ≤ b)
    (hb2 : b ≤ hi) : lo ≤ max a b ∧ max a b ≤ hi :=
  ⟨le_trans ha1 (le_max_left a b), max_le ha2 hb2⟩

theorem inBnd_cellMax (K : Int) (n : ℕ) (a b : Cell) (ha : inBnd K n a)
    (hb : inBnd K n b) : inBnd K n (cellMax a b) := by
  rcases cellMax_cases a b with h | h <;> rw [h]
  · exact ha
  · exact hb

theorem inBnd_mono (K : Int) (hK : 0 ≤ K) (m n : ℕ) (hmn : m ≤ n) (c : Cell)
    (h : inBnd K m c) : inBnd K n c := by
  obtain ⟨h1, h2⟩ := h
  have := bnd_mono K hK m n hmn
  exact ⟨by omega, by omega⟩

theorem abs_le_unpack (x K : Int) (h : |x| ≤ K) : -K ≤ x ∧ x ≤ K := abs_le.mp h

theorem cell_score_mk (a : Int) (m : Moves) :
    ({ score := a, mov := m } : Cell).score = a := rfl

set_option maxHeartbeats 1000000 in
/-- Bounds on all four matrices, rows `0 .. i`, given magnitude bound
`K` on all five policy values. -/
theorem entry_bounds (s t : List ℕ) (p : Scoring) (K : Int) (hK : 0 ≤ K)
    (b1 : |p.gap_inititation_score| ≤ K) (b2 : |p.gap_unit_score| ≤ K)
    (b3 : |p.match_score| ≤ K) (b4 : |p.mismatch_score| ≤ K)
    (b5 : |p.soft_clipping_score| ≤ K) :
    ∀ i j, j ≤ t.length →
      inBnd K (i + j) (Mf s t p i j) ∧ inBnd K (i + j) (If s t p i j) ∧
      inBnd K (i + j) (Df s t p i j) ∧ inBnd K (i + j) (Sf s t p i j) := by
  obtain ⟨b1a, b1b⟩ := abs_le_unpack _ _ b1
  obtain ⟨b2a, b2b⟩ := abs_le_unpack _ _ b2
  obtain ⟨b3a, b3b⟩ := abs_le_unpack _ _ b3
  obtain ⟨b4a, b4b⟩ := abs_le_unpack _ _ b4
  obtain ⟨b5a, b5b⟩ := abs_le_unpack _ _ b5
  have hmul : ∀ j : ℕ, 1 ≤ j →
      -((j : Int) * K) ≤ p.gap_unit_score * (j : Int) ∧
        p.gap_unit_score * (j : Int) ≤ (j : Int) * K := by
    intro j hj1
    have hj : (1 : Int) ≤ (j : Int) := by exact_mod_cast hj1
    have hj0 : (0 : Int) ≤ (j : Int) := by omega
    constructor
    · nlinarith [mul_nonneg (show (0 : Int) ≤ p.gap_unit_score + K by omega) hj0]
    · nlinarith [mul_nonneg (show (0 : Int) ≤ K - p.gap_unit_score by omega) hj0]
  intro i
  induction i with
  | zero =>
    intro j hj2
    rcases Nat.eq_zero_or_pos j with rfl | hj1
    · rw [Mf_col0, If_zero s t p 0 (by omega), Df_col0, Sf_col0]
      unfold inBnd dCell NEGATIVE_INF
      refine ⟨⟨?_, ?_⟩, ⟨?_, ?_⟩, ⟨?_, ?_⟩, ?_, ?_⟩ <;> simp
    · simp only [Nat.zero_add]
      have hj : (1 : Int) ≤ (j : Int) := by exact_mod_cast hj1
      have hj0 : (0 : Int) ≤ (j : Int) := by omega
      have hjK : K ≤ (j : Int) * K := le_mul_of_one_le_left hK hj
      have hjK0 : (0 : Int) ≤ (j : Int) * K := mul_nonneg hj0 hK
      have h2jK := bnd_nonneg K hK j
      obtain ⟨hm1, hm2⟩ := hmul j hj1
      have hDb : inBnd K j (Df s t p 0 j) := by
        rw [Df_zero s t p j hj2]
        unfold row0D
        rw [if_neg (by omega)]
        unfold inBnd
        constructor
        · show -1073741824 - 2 * (j : Int) * K ≤
            p.gap_inititation_score + p.gap_unit_score * (j : Int)
          linarith
        · show p.gap_inititation_score + p.gap_unit_score * (j : Int) ≤
            2 * (j : Int) * K
          linarith
      refine ⟨?_, ?_, hDb, ?_⟩
      · rw [Mf_zero s t p j hj2, if_neg (by omega)]
        unfold inBnd dCell NEGATIVE_INF
        constructor
        · show -1073741824 - 2 * (j : Int) * K ≤ -1073741824
          linarith
        · show (-1073741824 : Int) ≤ 2 * (j : Int) * K
          linarith
      · rw [If_zero s t p j hj2]
        unfold inBnd dCell NEGATIVE_INF
        constructor
        · show -1073741824 - 2 * (j : Int) * K ≤ -1073741824
          linarith
        · show (-1073741824 : Int) ≤ 2 * (j : Int) * K
          linarith
      · rw [Sf_zero s t p j hj2]
        unfold row0S
        rw [if_neg (by omega)]
        apply inBnd_cellMax
        · obtain ⟨x1, x2⟩ := hDb
          rw [Df_zero s t p j hj2] at x1 x2
          unfold row0D at x1 x2
          rw [if_neg (by omega)] at x1 x2
          exact ⟨x1, x2⟩
        · unfold inBnd
          constructor
          · show -1073741824 - 2 * (j : Int) * K ≤ p.soft_clipping_score
            linarith
          · show p.soft_clipping_score ≤ 2 * (j : Int) * K
            linarith
  | succ i2 ih =>
    -- interior sweep of row i2 + 1, by induction on the column
    have hrow : ∀ k, k ≤ t.length →
        inBnd K (i2 + 1 + k) (Mf s t p (i2 + 1) k) ∧
        inBnd K (i2 + 1 + k) (If s t p (i2 + 1) k) ∧
        inBnd K (i2 + 1 + k) (Df s t p (i2 + 1) k) ∧
        (k < t.length → inBnd K (i2 + 1 + k) (Sf s t p (i2 + 1) k)) := by
      intro k
      induction k with
      | zero =>
        intro _
        rw [Mf_col0, If_col0 s t p (i2 + 1) (by omega), Df_col0, Sf_col0]
        unfold inBnd dCell NEGATIVE_INF
        have hbn := bnd_nonneg K hK (i2 + 1)
        have h2K : 2 * K ≤ 2 * ((i2 + 1 : ℕ) : Int) * K := by
          have h1 : (1 : Int) ≤ ((i2 + 1 : ℕ) : Int) := by exact_mod_cast Nat.succ_le_succ (Nat.zero_le i2)
          nlinarith
        simp only [Nat.add_zero]
        refine ⟨⟨by linarith, by linarith⟩, ⟨?_, ?_⟩, ⟨by linarith, by linarith⟩,
          fun _ => ⟨by linarith, by linarith⟩⟩
        · show -1073741824 - 2 * ((i2 + 1 : ℕ) : Int) * K ≤
            p.gap_inititation_score + p.gap_unit_score
          linarith
        · show p.gap_inititation_score + p.gap_unit_score ≤ 2 * ((i2 + 1 : ℕ) : Int) * K
          linarith
      | succ k ihk =>
        intro hk
        obtain ⟨pM, pI, pD, pS⟩ := ih (k + 1) hk
        obtain ⟨pM0, pI0, pD0, pS0⟩ := ih k (by omega)
        obtain ⟨cM, cI, cD, cS⟩ := ihk (by omega)
        have es : 2 * ((i2 + 1 + (k + 1) : ℕ) : Int) * K =
            2 * ((i2 + (k + 1) : ℕ) : Int) * K + 2 * K := by
          push_cast
          ring
        have es2 : 2 * ((i2 + 1 + (k + 1) : ℕ) : Int) * K =
            2 * ((i2 + 1 + k : ℕ) : Int) * K + 2 * K := by
          push_cast
          ring
        have es3 : 2 * ((i2 + 1 + (k + 1) : ℕ) : Int) * K =
            2 * ((i2 + k : ℕ) : Int) * K + 4 * K := by
          push_cast
          ring
        have hIb : inBnd K (i2 + 1 + (k + 1)) (If s t p (i2 + 1) (k + 1)) := by
          rw [If_rec s t p i2 (k + 1) (by omega) hk]
          apply inBnd_cellMax
          · obtain ⟨x1, x2⟩ := pI
            unfold inBnd at *
            exact ⟨by simp only [cell_score_mk]; linarith [es],
              by simp only [cell_score_mk]; linarith [es]⟩
          · obtain ⟨x1, x2⟩ := pS
            unfold inBnd at *
            exact ⟨by simp only [cell_score_mk]; linarith [es],
              by simp only [cell_score_mk]; linarith [es]⟩
        have hDb : inBnd K (i2 + 1 + (k + 1)) (Df s t p (i2 + 1) (k + 1)) := by
          rw [Df_rec s t p i2 k hk]
          apply inBnd_cellMax
          · obtain ⟨x1, x2⟩ := cD
            unfold inBnd at *
            exact ⟨by simp only [cell_score_mk]; linarith [es2],
              by simp only [cell_score_mk]; linarith [es2]⟩
          · have cS2 : inBnd K (i2 + 1 + k) (Sf s t p (i2 + 1) k) := by
              rcases Nat.eq_zero_or_pos k with rfl | hk1
              · rw [Sf_col0]
                unfold inBnd
                have := bnd_nonneg K hK (i2 + 1 + 0)
                exact ⟨by simp only [cell_score_mk]; linarith,
                  by simp only [cell_score_mk]; linarith⟩
              · exact cS (by omega)
            obtain ⟨x1, x2⟩ := cS2
            unfold inBnd at *
            exact ⟨by simp only [cell_score_mk]; linarith [es2],
              by simp only [cell_score_mk]; linarith [es2]⟩
        have hMb : inBnd K (i2 + 1 + (k + 1)) (Mf s t p (i2 + 1) (k + 1)) := by
          rw [Mf_rec s t p i2 k hk]
          obtain ⟨x1, x2⟩ := pS0
          unfold inBnd at *
          constructor
          · simp only [cell_score_mk]
            split <;> linarith [es3]
          · simp only [cell_score_mk]
            split <;> linarith [es3]
        refine ⟨hMb, hIb, hDb, ?_⟩
        intro hlt
        rw [Sf_rec_int s t p i2 k hlt]
        unfold smax4
        apply inBnd_cellMax
        · apply inBnd_cellMax
          · exact ⟨hIb.1, hIb.2⟩
          · exact ⟨hDb.1, hDb.2⟩
        · apply inBnd_cellMax
          · exact ⟨hMb.1, hMb.2⟩
          · unfold inBnd
            have h1 : (1 : Int) ≤ ((i2 + 1 + (k + 1) : ℕ) : Int) := by
              push_cast
              omega
            have hKn : 2 * K ≤ 2 * ((i2 + 1 + (k + 1) : ℕ) : Int) * K := by
              nlinarith
            exact ⟨by simp only [cell_score_mk]; linarith,
              by simp only [cell_score_mk]; linarith⟩
    -- settle the final column, then assemble
    intro j hj
    rcases Nat.lt_or_ge j t.length with hjlt | hjge
    · obtain ⟨a1, a2, a3, a4⟩ := hrow j (by omega)
      exact ⟨a1, a2, a3, a4 hjlt⟩
    · have hjeq : j = t.length := by omega
      subst hjeq
      obtain ⟨a1, a2, a3, _⟩ := hrow t.length (le_refl _)
      refine ⟨a1, a2, a3, ?_⟩
      rcases Nat.eq_zero_or_pos t.length with h0 | htn
      · rw [h0, Sf_col0]
        unfold inBnd
        have := bnd_nonneg K hK (i2 + 1 + 0)
        exact ⟨by simp only [cell_score_mk]; linarith,
          by simp only [cell_score_mk]; linarith⟩
      · by_cases hnone : (Sf s t p (i2 + 1) t.length).mov = Moves.NONE
        · obtain ⟨he, _⟩ := Sfin_mov_none s t p i2 htn hnone
          rw [he]
          unfold inBnd dCell NEGATIVE_INF
          have := bnd_nonneg K hK (i2 + 1 + t.length)
          exact ⟨by simp only [cell_score_mk]; linarith,
            by simp only [cell_score_mk]; linarith⟩
        · by_cases hsuf : (Sf s t p (i2 + 1) t.length).mov = Moves.SUFFIX_CLIP
          · obtain ⟨js, w1, w2, _, w4, _⟩ := Sfin_suffix s t p i2 htn hsuf
            have hSjs : inBnd K (i2 + 1 + js) (Sf s t p (i2 + 1) js) :=
              (hrow js (by omega)).2.2.2 (by omega)
            have hmono := bnd_mono K hK (i2 + 1 + js + 1) (i2 + 1 + t.length)
              (by omega)
            have es4 : 2 * ((i2 + 1 + js + 1 : ℕ) : Int) * K =
                2 * ((i2 + 1 + js : ℕ) : Int) * K + 2 * K := by
              push_cast
              ring
            obtain ⟨x1, x2⟩ := hSjs
            unfold inBnd
            rw [w4]
            constructor <;> linarith [hmono, es4]
          · obtain ⟨he, _, _, _⟩ := Sfin_temp s t p i2 htn hnone hsuf
            rw [he]
            unfold rowTemp smax4
            apply inBnd_cellMax
            · apply inBnd_cellMax
              · exact ⟨a2.1, a2.2⟩
              · exact ⟨a3.1, a3.2⟩
            · apply inBnd_cellMax
              · exact ⟨a1.1, a1.2⟩
              · unfold inBnd
                have h1 : (1 : Int) ≤ ((i2 + 1 + t.length : ℕ) : Int) := by
                  push_cast
                  omega
                have hKn : 2 * K ≤ 2 * ((i2 + 1 + t.length : ℕ) : Int) * K := by
                  nlinarith
                exact ⟨by simp only [cell_score_mk]; linarith,
                  by simp only [cell_score_mk]; linarith⟩

set_option maxHeartbeats 1000000 in
/-- All values produced by initialization and fill stay within
`2 (|s| + |t| + 2) K` of the interval `[NEGATIVE_INF, 0]`, given magnitude
bound `K` on the five policy values. -/
theorem fill_bnd (s t : List ℕ) (p : Scoring) (K : Int) (hK : 0 ≤ K)
    (b1 : |p.gap_inititation_score| ≤ K) (b2 : |p.gap_unit_score| ≤ K)
    (b3 : |p.match_score| ≤ K) (b4 : |p.mismatch_score| ≤ K)
    (b5 : |p.soft_clipping_score| ≤ K) :
    ∀ v ∈ fillArith s t p,
      -1073741824 - 2 * ((s.length + t.length + 2 : ℕ) : Int) * K ≤ v ∧
        v ≤ 2 * ((s.length + t.length + 2 : ℕ) : Int) * K := by
  obtain ⟨b1a, b1b⟩ := abs_le_unpack _ _ b1
  obtain ⟨b2a, b2b⟩ := abs_le_unpack _ _ b2
  obtain ⟨b3a, b3b⟩ := abs_le_unpack _ _ b3
  obtain ⟨b4a, b4b⟩ := abs_le_unpack _ _ b4
  obtain ⟨b5a, b5b⟩ := abs_le_unpack _ _ b5
  have hb := entry_bounds s t p K hK b1 b2 b3 b4 b5
  have hA1 : (1 : Int) ≤ ((s.length + t.length + 2 : ℕ) : Int) := by
    push_cast
    omega
  have hAK : K ≤ ((s.length + t.length + 2 : ℕ) : Int) * K := by nlinarith
  have hAK0 : (0 : Int) ≤ ((s.length + t.length + 2 : ℕ) : Int) * K := by
    nlinarith
  have eA : 2 * ((s.length + t.length + 2 : ℕ) : Int) * K =
      2 * ((s.length + t.length : ℕ) : Int) * K + 4 * K := by
    push_cast
    ring
  intro v hv
  unfold fillArith at hv
  rcases List.mem_append.mp hv with hv1 | hv2
  · rcases List.mem_append.mp hv1 with hv0 | hvx
    · obtain ⟨l, hl, hvl⟩ := List.mem_flatten.mp hv0
      obtain ⟨k, hk, rfl⟩ := List.mem_map.mp hl
      have hkt : k < t.length := List.mem_range.mp hk
      have hc0 : (0 : Int) ≤ ((k + 1 : ℕ) : Int) := by
        push_cast
        omega
      have hcA : ((k + 1 : ℕ) : Int) ≤ ((s.length + t.length + 2 : ℕ) : Int) := by
        push_cast
        omega
      have hmul1 : -(((s.length + t.length + 2 : ℕ) : Int) * K) ≤
          p.gap_unit_score * ((k + 1 : ℕ) : Int) := by
        nlinarith [mul_nonneg hc0
            (show (0 : Int) ≤ p.gap_unit_score + K by linarith),
          mul_nonneg (show (0 : Int) ≤ ((s.length + t.length + 2 : ℕ) : Int) -
            ((k + 1 : ℕ) : Int) by linarith) hK]
      have hmul2 : p.gap_unit_score * ((k + 1 : ℕ) : Int) ≤
          ((s.length + t.length + 2 : ℕ) : Int) * K := by
        nlinarith [mul_nonneg hc0
            (show (0 : Int) ≤ K - p.gap_unit_score by linarith),
          mul_nonneg (show (0 : Int) ≤ ((s.length + t.length + 2 : ℕ) : Int) -
            ((k + 1 : ℕ) : Int) by linarith) hK]
      simp only [List.mem_cons, List.not_mem_nil, or_false] at hvl
      rcases hvl with rfl | rfl
      · exact ⟨by linarith, by linarith⟩
      · exact ⟨by linarith, by linarith⟩
    · obtain rfl := List.mem_singleton.mp hvx
      exact ⟨by linarith, by linarith⟩
  · obtain ⟨l2, hl2, hv2l⟩ := List.mem_flatten.mp hv2
    obtain ⟨i2, hi2, rfl⟩ := List.mem_map.mp hl2
    have hi2s : i2 < s.length := List.mem_range.mp hi2
    obtain ⟨l3, hl3, hv3l⟩ := List.mem_flatten.mp hv2l
    obtain ⟨k, hk, rfl⟩ := List.mem_map.mp hl3
    have hkt : k < t.length := List.mem_range.mp hk
    have q1 := inBnd_mono K hK (i2 + (k + 1)) (s.length + t.length) (by omega) _
      (hb i2 (k + 1) (by omega)).2.1
    have q2 := inBnd_mono K hK (i2 + (k + 1)) (s.length + t.length) (by omega) _
      (hb i2 (k + 1) (by omega)).2.2.2
    have q3 := inBnd_mono K hK (i2 + 1 + k) (s.length + t.length) (by omega) _
      (hb (i2 + 1) k (by omega)).2.2.1
    have q4 := inBnd_mono K hK (i2 + 1 + k) (s.length + t.length) (by omega) _
      (hb (i2 + 1) k (by omega)).2.2.2
    have q5 := inBnd_mono K hK (i2 + k) (s.length + t.length) (by omega) _
      (hb i2 k (by omega)).2.2.2
    have q6 := inBnd_mono K hK (i2 + 1 + (k + 1)) (s.length + t.length)
      (by omega) _ (hb (i2 + 1) (k + 1) (by omega)).2.2.2
    unfold inBnd at q1 q2 q3 q4 q5 q6
    obtain ⟨q1a, q1b⟩ := q1
    obtain ⟨q2a, q2b⟩ := q2
    obtain ⟨q3a, q3b⟩ := q3
    obtain ⟨q4a, q4b⟩ := q4
    obtain ⟨q5a, q5b⟩ := q5
    obtain ⟨q6a, q6b⟩ := q6
    unfold cellArith at hv3l
    simp only [Nat.add_sub_cancel] at hv3l
    by_cases hfin : k + 1 < t.length
    · rw [if_pos hfin] at hv3l
      simp only [List.mem_append, List.mem_cons, List.not_mem_nil, or_false]
        at hv3l
      rcases hv3l with (rfl | rfl | rfl | rfl | rfl | rfl | rfl) | rfl <;>
        constructor <;>
        first
          | linarith [eA]
          | (split <;> linarith [eA])
    · rw [if_neg hfin] at hv3l
      simp only [List.append_nil, List.mem_cons, List.not_mem_nil, or_false]
        at hv3l
      rcases hv3l with rfl | rfl | rfl | rfl | rfl | rfl | rfl <;>
        constructor <;>
        first
          | linarith [eA]
          | (split <;> linarith [eA])

/-- **C9** (corrected): no addition of initialization and forward fill
leaves the `i32` range, provided the five policy values are bounded in
magnitude by some `K ≥ 0` with `2 (|s| + |t| + 2) K ≤ 2^30`; the claim
as stated, quantified over every policy, is refuted by
`C9_counterexample`. -/
theorem C9_theorem (s t : List ℕ) (p : Scoring) (K : Int) (hK : 0 ≤ K)
    (b1 : |p.gap_inititation_score| ≤ K) (b2 : |p.gap_unit_score| ≤ K)
    (b3 : |p.match_score| ≤ K) (b4 : |p.mismatch_score| ≤ K)
    (b5 : |p.soft_clipping_score| ≤ K)
    (hcap : 2 * ((s.length + t.length + 2 : ℕ) : Int) * K ≤ 1073741824) :
    ∀ v ∈ fillArith s t p, -2147483648 ≤ v ∧ v ≤ 2147483647 := by
  intro v hv
  obtain ⟨h1, h2⟩ := fill_bnd s t p K hK b1 b2 b3 b4 b5 v hv
  exact ⟨by linarith, by linarith⟩

/-- Witness for `C9_theorem` at a concrete fill value, the row-0 sum
`gap_init + gap_unit * 1 = -6`. -/
theorem C9_witness :
    (-6 : Int) ∈ fillArith [1] [2] ⟨-5, -1, 2, -2, -5⟩ ∧
      -2147483648 ≤ (-6 : Int) ∧ (-6 : Int) ≤ 2147483647 :=
  ⟨by decide,
   C9_theorem [1] [2] ⟨-5, -1, 2, -2, -5⟩ 5 (by decide) (by decide) (by decide)
     (by decide) (by decide) (by decide) (by decide) (-6) (by decide)⟩

/-- With `gap_unit_score = i32::MIN` the fill adds
`NEGATIVE_INF + gap_unit_score = -3221225472`, which wraps below
`i32::MIN`: the claim does not hold for every policy. -/
theorem C9_counterexample :
    (-3221225472 : Int) ∈ fillArith [1] [1] ⟨0, -2147483648, 0, 0, 0⟩ ∧
      (-3221225472 : Int) < -2147483648 := by
  decide

/-! ### The traceback walk: move inventory and chain invariants -/

theorem countMSI_cons (a : Moves) (l : List Moves) :
    countMSI (a :: l) = countMSI l + (if isMSI a then 1 else 0) := by
  by_cases h : isMSI a
  · simp [countMSI, List.filter_cons, h]
  · simp [countMSI, List.filter_cons, h]

theorem countMSI_append (l1 l2 : List Moves) :
    countMSI (l1 ++ l2) = countMSI l1 + countMSI l2 := by
  simp [countMSI, List.filter_append]

theorem countMSI_reverse (l : List Moves) : countMSI l.reverse = countMSI l := by
  simp [countMSI, List.filter_reverse]

/-- The `match_matrix` move is copied from the diagonal `Score` cell. -/
theorem Mf_mov (s t : List ℕ) (p : Scoring) (i j : ℕ) (h1 : 1 ≤ i) (h2 : 1 ≤ j)
    (h3 : j ≤ t.length) : (Mf s t p i j).mov = (Sf s t p (i - 1) (j - 1)).mov := by
  obtain ⟨i2, rfl⟩ : ∃ i2, i = i2 + 1 := ⟨i - 1, by omega⟩
  obtain ⟨k, rfl⟩ : ∃ k, j = k + 1 := ⟨j - 1, by omega⟩
  simp only [Nat.add_sub_cancel]
  rw [Mf_rec s t p i2 k h3]

theorem If_col0_mov (s t : List ℕ) (p : Scoring) (i : ℕ) :
    (If s t p i 0).mov = Moves.NONE := by
  cases i with
  | zero => exact If_row0_mov s t p 0 (by omega)
  | succ i2 => rw [If_col0 s t p (i2 + 1) (by omega)]

/-- The two ways an `insert_matrix` cell can carry the `INSERT` move:
gap continuation, or gap opening from a `Score` cell that itself stored
`INSERT`. -/
theorem If_insert_cases (s t : List ℕ) (p : Scoring) (i j : ℕ) (h1 : 1 ≤ i)
    (h2 : 1 ≤ j) (h3 : j ≤ t.length) (hm : (If s t p i j).mov = Moves.INSERT) :
    (If s t p i j).score = (If s t p (i - 1) j).score + p.gap_unit_score ∨
      ((If s t p i j).score =
          (Sf s t p (i - 1) j).score + p.gap_inititation_score + p.gap_unit_score ∧
        (Sf s t p (i - 1) j).mov = Moves.INSERT) := by
  obtain ⟨i2, rfl⟩ : ∃ i2, i = i2 + 1 := ⟨i - 1, by omega⟩
  simp only [Nat.add_sub_cancel]
  have he := If_rec s t p i2 j h2 h3
  rcases cellMax_cases
      (⟨(If s t p i2 j).score + p.gap_unit_score, Moves.INSERT⟩ : Cell)
      ⟨(Sf s t p i2 j).score + p.gap_inititation_score + p.gap_unit_score,
       (Sf s t p i2 j).mov⟩ with h4 | h4 <;> rw [h4] at he
  · left
    rw [he]
  · right
    have hmov := congrArg Cell.mov he
    simp only [] at hmov
    rw [he]
    exact ⟨rfl, by rw [← hmov, hm]⟩

/-- The chain invariant of a backward `INSERT` run pinned at the final
column: every interior suffix-clip candidate of the row's
`insert_matrix` is strictly below the final-column insert score. -/
def Pchain (s t : List ℕ) (p : Scoring) (r : ℕ) : Prop :=
  ∀ j, 1 ≤ j → j ≤ t.length - 1 →
    (If s t p r j).score + p.soft_clipping_score < (If s t p r t.length).score

theorem Pchain_entry (s t : List ℕ) (p : Scoring) (i : ℕ) (h1 : 1 ≤ i)
    (htn : 1 ≤ t.length) (hm : (Sf s t p i t.length).mov = Moves.INSERT) :
    Pchain s t p i := by
  obtain ⟨i2, rfl⟩ : ∃ i2, i = i2 + 1 := ⟨i - 1, by omega⟩
  obtain ⟨_, _, hstrict, _⟩ := Sfin_temp s t p i2 htn
    (by rw [hm]; simp) (by rw [hm]; simp)
  obtain ⟨_, _, hsc⟩ := S_mov_insert s t p (i2 + 1) t.length (le_refl _) hm
  intro j hj1 hj2
  have h3 := hstrict j hj1 hj2
  have h4 := Sf_int_ge_I s t p (i2 + 1) j (by omega) hj1 (by omega)
  linarith

theorem Pchain_step (s t : List ℕ) (p : Scoring) (i : ℕ) (h2i : 2 ≤ i)
    (htn : 1 ≤ t.length) (hm : (If s t p i t.length).mov = Moves.INSERT)
    (hp : Pchain s t p i) : Pchain s t p (i - 1) := by
  rcases If_insert_cases s t p i t.length (by omega) htn (le_refl _) hm
    with hc | ⟨_, hmov⟩
  · intro j hj1 hj2
    have hA := hp j hj1 hj2
    have hB := If_ge_cont s t p i j (by omega) hj1 (by omega)
    linarith
  · exact Pchain_entry s t p (i - 1) (by omega) htn hmov

/-- Under the chain invariant, the final-column `insert_matrix` cell
cannot carry a `SUFFIX_CLIP` move: a mid-path suffix clip is
impossible. -/
theorem no_suffix_insert (s t : List ℕ) (p : Scoring) (i : ℕ) (h1 : 1 ≤ i)
    (htn : 1 ≤ t.length) (hp : Pchain s t p i) :
    (If s t p i t.length).mov ≠ Moves.SUFFIX_CLIP := by
  intro hm
  obtain ⟨hsc2, hmov⟩ := If_mov_other s t p i t.length h1 htn (le_refl _)
    (by rw [hm]; simp)
  have hsfx : (Sf s t p (i - 1) t.length).mov = Moves.SUFFIX_CLIP := by
    rw [hmov, hm]
  obtain ⟨_, _, _, js, hjs1, hjs2, _, hseq, _⟩ :=
    S_mov_suffix_clip s t p (i - 1) t.length (le_refl _) hsfx
  have hop := If_ge_open s t p i js h1 hjs1 (by omega)
  have hchain := hp js hjs1 hjs2
  linarith

set_option maxHeartbeats 1000000 in
/-- The traceback walk, run to completion (IND-A).  From any state
whose column is in range, whose pending move is not `SUFFIX_CLIP`, and
which carries the chain invariant when pinned at the final column in
`INSERT` mode, the loop terminates within `i + j + 1` steps, never
pushes `NONE` or `SUFFIX_CLIP`, and consumes at most `i + 1`
reference symbols. -/
theorem tb_run (s t : List ℕ) (p : Scoring) (clip : ℕ) :
    ∀ fuel i j last acc, i + j + 1 ≤ fuel → j ≤ t.length →
      last ≠ Moves.SUFFIX_CLIP →
      (last = Moves.INSERT → j = t.length → 1 ≤ i → Pchain s t p i) →
      ∃ Q plen, tbLoop s t p clip fuel i j last acc =
          some (Q.reverse ++ acc, plen) ∧
        (∀ mv ∈ Q, mv ≠ Moves.NONE ∧ mv ≠ Moves.SUFFIX_CLIP) ∧
        countMSI (last :: Q) ≤ i + 1 := by
  intro fuel
  induction fuel with
  | zero =>
    intro i j last acc hf
    exact absurd hf (by omega)
  | succ f ih =>
    intro i j last acc hf hj hsuf hch
    have htn1 : 1 ≤ j → 1 ≤ t.length := fun h => le_trans h hj
    cases last with
    | NONE =>
      refine ⟨[], 0, rfl, ?_, ?_⟩
      · intro mv hmv
        exact absurd hmv (List.not_mem_nil mv)
      · have h0 : countMSI [Moves.NONE] = 0 := rfl
        omega
    | PREFIX_CLIP =>
      refine ⟨[], j, rfl, ?_, ?_⟩
      · intro mv hmv
        exact absurd hmv (List.not_mem_nil mv)
      · have h0 : countMSI [Moves.PREFIX_CLIP] = 0 := rfl
        omega
    | SUFFIX_CLIP => exact absurd rfl hsuf
    | MATCH =>
      have he : tbLoop s t p clip (f + 1) i j Moves.MATCH acc =
          if (Mf s t p i j).mov = Moves.NONE then some (acc, 0)
          else tbLoop s t p clip f (i - 1) (j - 1) ((Mf s t p i j).mov)
            ((Mf s t p i j).mov :: acc) := rfl
      by_cases hnx : (Mf s t p i j).mov = Moves.NONE
      · rw [he, if_pos hnx]
        refine ⟨[], 0, rfl, ?_, ?_⟩
        · intro mv hmv
          exact absurd hmv (List.not_mem_nil mv)
        · have h0 : countMSI [Moves.MATCH] = 1 := rfl
          omega
      · have hi1 : 1 ≤ i := by
          by_contra h0
          exact hnx (by rw [show i = 0 by omega]; exact Mf_row0_mov s t p j hj)
        have hj1 : 1 ≤ j := by
          by_contra h0
          exact hnx (by rw [show j = 0 by omega, Mf_col0])
        have hmv := Mf_mov s t p i j hi1 hj1 hj
        have hnsuf : (Mf s t p i j).mov ≠ Moves.SUFFIX_CLIP := by
          intro hB
          rw [hmv] at hB
          obtain ⟨_, hJ, _⟩ := S_mov_suffix_clip s t p (i - 1) (j - 1)
            (by omega) hB
          omega
        have hch' : (Mf s t p i j).mov = Moves.INSERT → j - 1 = t.length →
            1 ≤ i - 1 → Pchain s t p (i - 1) := by
          intro _ hJ _
          exact absurd hJ (by omega)
        obtain ⟨Q', plen, e1, e2, e3⟩ := ih (i - 1) (j - 1) ((Mf s t p i j).mov)
          ((Mf s t p i j).mov :: acc) (by omega) (by omega) hnsuf hch'
        refine ⟨(Mf s t p i j).mov :: Q', plen, ?_, ?_, ?_⟩
        · rw [he, if_neg hnx, e1, List.reverse_cons, List.append_assoc]
          rfl
        · intro mv hmv2
          rcases List.mem_cons.mp hmv2 with rfl | hm3
          · exact ⟨hnx, hnsuf⟩
          · exact e2 mv hm3
        · rw [countMSI_cons]
          have hmsi : (if isMSI Moves.MATCH then 1 else 0) = 1 := rfl
          rw [hmsi]
          omega
    | SUBS =>
      have he : tbLoop s t p clip (f + 1) i j Moves.SUBS acc =
          if (Mf s t p i j).mov = Moves.NONE then some (acc, 0)
          else tbLoop s t p clip f (i - 1) (j - 1) ((Mf s t p i j).mov)
            ((Mf s t p i j).mov :: acc) := rfl
      by_cases hnx : (Mf s t p i j).mov = Moves.NONE
      · rw [he, if_pos hnx]
        refine ⟨[], 0, rfl, ?_, ?_⟩
        · intro mv hmv
          exact absurd hmv (List.not_mem_nil mv)
        · have h0 : countMSI [Moves.SUBS] = 1 := rfl
          omega
      · have hi1 : 1 ≤ i := by
          by_contra h0
          exact hnx (by rw [show i = 0 by omega]; exact Mf_row0_mov s t p j hj)
        have hj1 : 1 ≤ j := by
          by_contra h0
          exact hnx (by rw [show j = 0 by omega, Mf_col0])
        have hmv := Mf_mov s t p i j hi1 hj1 hj
        have hnsuf : (Mf s t p i j).mov ≠ Moves.SUFFIX_CLIP := by
          intro hB
          rw [hmv] at hB
          obtain ⟨_, hJ, _⟩ := S_mov_suffix_clip s t p (i - 1) (j - 1)
            (by omega) hB
          omega
        have hch' : (Mf s t p i j).mov = Moves.INSERT → j - 1 = t.length →
            1 ≤ i - 1 → Pchain s t p (i - 1) := by
          intro _ hJ _
          exact absurd hJ (by omega)
        obtain ⟨Q', plen, e1, e2, e3⟩ := ih (i - 1) (j - 1) ((Mf s t p i j).mov)
          ((Mf s t p i j).mov :: acc) (by omega) (by omega) hnsuf hch'
        refine ⟨(Mf s t p i j).mov :: Q', plen, ?_, ?_, ?_⟩
        · rw [he, if_neg hnx, e1, List.reverse_cons, List.append_assoc]
          rfl
        · intro mv hmv2
          rcases List.mem_cons.mp hmv2 with rfl | hm3
          · exact ⟨hnx, hnsuf⟩
          · exact e2 mv hm3
        · rw [countMSI_cons]
          have hmsi : (if isMSI Moves.SUBS then 1 else 0) = 1 := rfl
          rw [hmsi]
          omega
    | INSERT =>
      have he : tbLoop s t p clip (f + 1) i j Moves.INSERT acc =
          if (If s t p i j).mov = Moves.NONE then some (acc, 0)
          else tbLoop s t p clip f (i - 1) j ((If s t p i j).mov)
            ((If s t p i j).mov :: acc) := rfl
      by_cases hnx : (If s t p i j).mov = Moves.NONE
      · rw [he, if_pos hnx]
        refine ⟨[], 0, rfl, ?_, ?_⟩
        · intro mv hmv
          exact absurd hmv (List.not_mem_nil mv)
        · have h0 : countMSI [Moves.INSERT] = 1 := rfl
          omega
      · have hi1 : 1 ≤ i := by
          by_contra h0
          exact hnx (by rw [show i = 0 by omega]; exact If_row0_mov s t p j hj)
        have hj1 : 1 ≤ j := by
          by_contra h0
          exact hnx (by rw [show j = 0 by omega]; exact If_col0_mov s t p i)
        have hnsuf : (If s t p i j).mov ≠ Moves.SUFFIX_CLIP := by
          intro hB
          by_cases hjt : j = t.length
          · have hP : Pchain s t p i := hch rfl hjt hi1
            exact no_suffix_insert s t p i hi1 (htn1 hj1) hP (by rw [← hjt]; exact hB)
          · obtain ⟨_, hmov⟩ := If_mov_other s t p i j hi1 hj1 hj
              (by rw [hB]; simp)
            have hsfx : (Sf s t p (i - 1) j).mov = Moves.SUFFIX_CLIP := by
              rw [hmov, hB]
            obtain ⟨_, hJ, _⟩ := S_mov_suffix_clip s t p (i - 1) j hj hsfx
            exact hjt hJ
        have hch' : (If s t p i j).mov = Moves.INSERT → j = t.length →
            1 ≤ i - 1 → Pchain s t p (i - 1) := by
          intro hI hjt hi2
          have hP : Pchain s t p i := hch rfl hjt hi1
          exact Pchain_step s t p i (by omega) (htn1 hj1)
            (by rw [← hjt]; exact hI) hP
        obtain ⟨Q', plen, e1, e2, e3⟩ := ih (i - 1) j ((If s t p i j).mov)
          ((If s t p i j).mov :: acc) (by omega) hj hnsuf hch'
        refine ⟨(If s t p i j).mov :: Q', plen, ?_, ?_, ?_⟩
        · rw [he, if_neg hnx, e1, List.reverse_cons, List.append_assoc]
          rfl
        · intro mv hmv2
          rcases List.mem_cons.mp hmv2 with rfl | hm3
          · exact ⟨hnx, hnsuf⟩
          · exact e2 mv hm3
        · rw [countMSI_cons]
          have hmsi : (if isMSI Moves.INSERT then 1 else 0) = 1 := rfl
          rw [hmsi]
          omega
    | DELETE =>
      have he : tbLoop s t p clip (f + 1) i j Moves.DELETE acc =
          if (Df s t p i j).mov = Moves.NONE then some (acc, 0)
          else tbLoop s t p clip f i (j - 1) ((Df s t p i j).mov)
            ((Df s t p i j).mov :: acc) := rfl
      by_cases hnx : (Df s t p i j).mov = Moves.NONE
      · rw [he, if_pos hnx]
        refine ⟨[], 0, rfl, ?_, ?_⟩
        · intro mv hmv
          exact absurd hmv (List.not_mem_nil mv)
        · have h0 : countMSI [Moves.DELETE] = 0 := rfl
          omega
      · have hj1 : 1 ≤ j := by
          by_contra h0
          exact hnx (by rw [show j = 0 by omega, Df_col0]; rfl)
        have hnsuf : (Df s t p i j).mov ≠ Moves.SUFFIX_CLIP := by
          intro hB
          obtain ⟨_, hmov⟩ := Df_mov_other s t p i j hj1 hj (by rw [hB]; simp)
          have hsfx : (Sf s t p i (j - 1)).mov = Moves.SUFFIX_CLIP := by
            rw [hmov, hB]
          obtain ⟨_, hJ, _⟩ := S_mov_suffix_clip s t p i (j - 1) (by omega) hsfx
          omega
        have hch' : (Df s t p i j).mov = Moves.INSERT → j - 1 = t.length →
            1 ≤ i → Pchain s t p i := by
          intro _ hJ _
          exact absurd hJ (by omega)
        obtain ⟨Q', plen, e1, e2, e3⟩ := ih i (j - 1) ((Df s t p i j).mov)
          ((Df s t p i j).mov :: acc) (by omega) (by omega) hnsuf hch'
        refine ⟨(Df s t p i j).mov :: Q', plen, ?_, ?_, ?_⟩
        · rw [he, if_neg hnx, e1, List.reverse_cons, List.append_assoc]
          rfl
        · intro mv hmv2
          rcases List.mem_cons.mp hmv2 with rfl | hm3
          · exact ⟨hnx, hnsuf⟩
          · exact e2 mv hm3
        · rw [countMSI_cons]
          have hmsi : (if isMSI Moves.DELETE then 1 else 0) = 0 := rfl
          rw [hmsi]
          omega

theorem countMSI_rev_concat (Q : List Moves) (a : Moves) :
    countMSI (Q.reverse ++ [a]) = countMSI (a :: Q) := by
  have h1 := countMSI_cons a Q
  have h2 := countMSI_cons a ([] : List Moves)
  have h3 : countMSI ([] : List Moves) = 0 := rfl
  rw [countMSI_append, countMSI_reverse]
  omega

/-- When the best-row scan succeeds on a non-empty read, the chosen
final-column cell does not carry the `NONE` move. -/
theorem first_ne_none (s t : List ℕ) (p : Scoring) (i0 : ℕ) (ht : t ≠ [])
    (hbs : (bestScan s t p).2 = some i0) :
    (Sf s t p i0 t.length).mov ≠ Moves.NONE := by
  obtain ⟨_, _, hpos, _⟩ := bestScan_some s t p i0 hbs
  intro hm
  have htn : 1 ≤ t.length := List.length_pos.mpr ht
  cases i0 with
  | zero =>
    rw [Sf_zero s t p t.length (le_refl _)] at hm
    rcases row0S_cases p t.length htn with h4 | h4 <;> rw [h4] at hm <;> simp at hm
  | succ i2 =>
    obtain ⟨he, _⟩ := Sfin_mov_none s t p i2 htn hm
    rw [he] at hpos
    exact absurd hpos (by unfold dCell; simp)

/-- An interior `Score` cell of a row `i ≥ 1` never stores `NONE`. -/
theorem S_int_ne_none (s t : List ℕ) (p : Scoring) (i j : ℕ) (h1 : 1 ≤ i)
    (h2 : 1 ≤ j) (h3 : j < t.length) : (Sf s t p i j).mov ≠ Moves.NONE := by
  intro hm
  have hsx := Sf_int_smax s t p i j h1 h2 h3
  have hmem := smax4_mov_mem p (If s t p i j).score (Df s t p i j).score
    (Mf s t p i j).score
    (if s.getD (i - 1) 0 = t.getD (j - 1) 0 then Moves.MATCH else Moves.SUBS)
  rw [← hsx, hm] at hmem
  rcases hmem with h4 | h4 | h4 | h4
  · simp at h4
  · simp at h4
  · by_cases hxy : s.getD (i - 1) 0 = t.getD (j - 1) 0
    · rw [if_pos hxy] at h4
      simp at h4
    · rw [if_neg hxy] at h4
      simp at h4
  · simp at h4

/-- One step of the traceback loop from the `SUFFIX_CLIP` state. -/
theorem tbLoop_suffix_step (s t : List ℕ) (p : Scoring) (clip f i j : ℕ)
    (acc : List Moves) (h : (Sf s t p i (j - clip)).mov ≠ Moves.NONE) :
    tbLoop s t p clip (f + 1) i j Moves.SUFFIX_CLIP acc =
      tbLoop s t p clip f i (j - clip) ((Sf s t p i (j - clip)).mov)
        ((Sf s t p i (j - clip)).mov :: acc) := by
  show (if (Sf s t p i (j - clip)).mov = Moves.NONE then some (acc, 0)
    else tbLoop s t p clip f i (j - clip) ((Sf s t p i (j - clip)).mov)
      ((Sf s t p i (j - clip)).mov :: acc)) = _
  rw [if_neg h]

/-- Reduction of `compute` once the scan result, the traceback result
and the `NONE`-freeness of the move list are known. -/
theorem compute_eq_of (s t : List ℕ) (p : Scoring) (i0 plen : ℕ)
    (P : List Moves) (hbs : (bestScan s t p).2 = some i0)
    (htb : tbLoop s t p (clipf s t p i0) (s.length + t.length + 1) i0 t.length
      ((Sf s t p i0 t.length).mov) [(Sf s t p i0 t.length).mov] =
        some (P, plen))
    (hnone : Moves.NONE ∉ P) :
    compute s t p = some
      { score := (Sf s t p i0 t.length).score
        s_range0 := (i0 : Int) - (countMSI P : Int)
        s_range1 := (i0 : Int)
        t_range0 := 0
        t_range1 := (t.length : Int)
        moves := P
        prefix_clip_length := plen
        suffix_clip_length := clipf s t p i0 } := by
  unfold compute
  simp only [hbs]
  rw [htb]
  show (if Moves.NONE ∈ P then none else _) = _
  rw [if_neg hnone]

set_option maxHeartbeats 1000000 in
/-- The full successful run of `compute`: when the best-row scan
succeeds on a non-empty read, the traceback terminates, the returned
record has exactly the fields written by the Rust code, the pushed
moves (all but the last of `moves`) contain neither `NONE` nor
`SUFFIX_CLIP`, at most `i0 + 1` reference symbols are consumed, and a
leading suffix clip resumes at a non-`SUFFIX_CLIP` interior cell. -/
theorem compute_run (s t : List ℕ) (p : Scoring) (i0 : ℕ) (ht : t ≠ [])
    (hbs : (bestScan s t p).2 = some i0) :
    ∃ Q plen,
      compute s t p = some
        { score := (Sf s t p i0 t.length).score
          s_range0 := (i0 : Int) -
            (countMSI (Q.reverse ++ [(Sf s t p i0 t.length).mov]) : Int)
          s_range1 := (i0 : Int)
          t_range0 := 0
          t_range1 := (t.length : Int)
          moves := Q.reverse ++ [(Sf s t p i0 t.length).mov]
          prefix_clip_length := plen
          suffix_clip_length := clipf s t p i0 } ∧
      (∀ mv ∈ Q, mv ≠ Moves.NONE ∧ mv ≠ Moves.SUFFIX_CLIP) ∧
      countMSI ((Sf s t p i0 t.length).mov :: Q) ≤ i0 + 1 ∧
      ((Sf s t p i0 t.length).mov = Moves.SUFFIX_CLIP →
        1 ≤ t.length - clipf s t p i0 ∧
        t.length - clipf s t p i0 ≤ t.length - 1 ∧
        (Sf s t p i0 (t.length - clipf s t p i0)).mov ≠ Moves.NONE ∧
        (Sf s t p i0 (t.length - clipf s t p i0)).mov ≠ Moves.SUFFIX_CLIP) ∧
      tbLoop s t p (clipf s t p i0) (s.length + t.length + 1) i0 t.length
          ((Sf s t p i0 t.length).mov) [(Sf s t p i0 t.length).mov] =
        some (Q.reverse ++ [(Sf s t p i0 t.length).mov], plen) := by
  have htn : 1 ≤ t.length := List.length_pos.mpr ht
  have hfn := first_ne_none s t p i0 ht hbs
  obtain ⟨hi0le, _, _, _⟩ := bestScan_some s t p i0 hbs
  by_cases hsfx : (Sf s t p i0 t.length).mov = Moves.SUFFIX_CLIP
  · -- leading suffix clip: one manual step, then the generic run
    obtain ⟨hi1, _, _, js, hjs1, hjs2, hclip, hseq, _⟩ :=
      S_mov_suffix_clip s t p i0 t.length (le_refl _) hsfx
    have hj2 : t.length - clipf s t p i0 = js := by omega
    have hnn : (Sf s t p i0 js).mov ≠ Moves.NONE :=
      S_int_ne_none s t p i0 js hi1 hjs1 (by omega)
    have hns : (Sf s t p i0 js).mov ≠ Moves.SUFFIX_CLIP := by
      intro hm
      obtain ⟨_, hJ, _⟩ := S_mov_suffix_clip s t p i0 js (by omega) hm
      omega
    have hch' : (Sf s t p i0 js).mov = Moves.INSERT → js = t.length →
        1 ≤ i0 → Pchain s t p i0 := by
      intro _ hJ _
      exact absurd hJ (by omega)
    obtain ⟨Q', plen, e1, e2, e3⟩ := tb_run s t p (clipf s t p i0)
      (s.length + t.length) i0 js ((Sf s t p i0 js).mov)
      ((Sf s t p i0 js).mov :: [(Sf s t p i0 t.length).mov])
      (by omega) (by omega) hns hch'
    have hstep0 : ∀ acc0 : List Moves,
        tbLoop s t p (clipf s t p i0) (s.length + t.length + 1) i0
          t.length ((Sf s t p i0 t.length).mov) acc0 =
        tbLoop s t p (clipf s t p i0) (s.length + t.length) i0 js
          ((Sf s t p i0 js).mov) ((Sf s t p i0 js).mov :: acc0) := by
      intro acc0
      rw [hsfx]
      rw [tbLoop_suffix_step s t p (clipf s t p i0) (s.length + t.length) i0
        t.length acc0 (by rw [hj2]; exact hnn), hj2]
    have hstep := hstep0 [(Sf s t p i0 t.length).mov]
    have hP : Q'.reverse ++ ((Sf s t p i0 js).mov ::
        [(Sf s t p i0 t.length).mov]) =
        ((Sf s t p i0 js).mov :: Q').reverse ++
          [(Sf s t p i0 t.length).mov] := by
      rw [List.reverse_cons, List.append_assoc]
      rfl
    have hnone : Moves.NONE ∉ ((Sf s t p i0 js).mov :: Q').reverse ++
        [(Sf s t p i0 t.length).mov] := by
      intro hmem
      rcases List.mem_append.mp hmem with hm1 | hm2
      · rw [List.mem_reverse] at hm1
        rcases List.mem_cons.mp hm1 with he2 | hm3
        · exact hnn he2.symm
        · exact (e2 _ hm3).1 rfl
      · rw [List.mem_singleton] at hm2
        exact hfn hm2.symm
    refine ⟨(Sf s t p i0 js).mov :: Q', plen, ?_, ?_, ?_, ?_, ?_⟩
    · exact compute_eq_of s t p i0 plen _ hbs
        (by rw [hstep, e1, hP]) hnone
    · intro mv hmv
      rcases List.mem_cons.mp hmv with rfl | hm3
      · exact ⟨hnn, hns⟩
      · exact e2 mv hm3
    · rw [countMSI_cons]
      have hmsi : (if isMSI Moves.SUFFIX_CLIP then 1 else 0) = 0 := rfl
      rw [hsfx, hmsi]
      have h4 := countMSI_cons ((Sf s t p i0 js).mov) Q'
      omega
    · intro _
      rw [hj2]
      exact ⟨by omega, by omega, hnn, hns⟩
    · rw [hstep, e1, hP]
  · -- no leading suffix clip: the generic run from the top state
    have hch : (Sf s t p i0 t.length).mov = Moves.INSERT → t.length = t.length →
        1 ≤ i0 → Pchain s t p i0 := by
      intro hI _ _
      exact Pchain_entry s t p i0
        (S_mov_insert s t p i0 t.length (le_refl _) hI).1 htn hI
    obtain ⟨Q, plen, e1, e2, e3⟩ := tb_run s t p (clipf s t p i0)
      (s.length + t.length + 1) i0 t.length ((Sf s t p i0 t.length).mov)
      [(Sf s t p i0 t.length).mov] (by omega) (le_refl _) hsfx hch
    have hnone : Moves.NONE ∉ Q.reverse ++ [(Sf s t p i0 t.length).mov] := by
      intro hmem
      rcases List.mem_append.mp hmem with hm1 | hm2
      · rw [List.mem_reverse] at hm1
        exact (e2 _ hm1).1 rfl
      · rw [List.mem_singleton] at hm2
        exact hfn hm2.symm
    refine ⟨Q, plen, ?_, e2, e3, fun hm => absurd hm hsfx, e1⟩
    exact compute_eq_of s t p i0 plen _ hbs (by rw [e1]) hnone

/-- If the best final-column cell stores `NONE`, the traceback pushes
the sentinel and the Rust code panics in the `s_range[0]` loop
(modeled as `none`). -/
theorem compute_none_of (s t : List ℕ) (p : Scoring) (i0 : ℕ)
    (hbs : (bestScan s t p).2 = some i0)
    (hf : (Sf s t p i0 t.length).mov = Moves.NONE) : compute s t p = none := by
  unfold compute
  simp only [hbs]
  have hstep : tbLoop s t p (clipf s t p i0) (s.length + t.length + 1) i0
      t.length ((Sf s t p i0 t.length).mov) [(Sf s t p i0 t.length).mov] =
      some ([Moves.NONE], 0) := by
    rw [hf]
    rfl
  rw [hstep]
  show (if Moves.NONE ∈ [Moves.NONE] then none else _) = _
  rw [if_pos (List.mem_singleton.mpr rfl)]

/-- An empty read makes the Rust code panic in the `s_range[0]` loop:
the first traceback state is already the `NONE` of `S[i][0]`. -/
theorem compute_nil (s : List ℕ) (p : Scoring) : compute s [] p = none := by
  cases hbs : (bestScan s [] p).2 with
  | none =>
    unfold compute
    simp only [hbs]
  | some i0 =>
    refine compute_none_of s [] p i0 hbs ?_
    show (Sf s [] p i0 0).mov = Moves.NONE
    rw [Sf_col0]

/-- Inversion of a successful `compute`: the read is non-empty, the
scan succeeded, and the result is the record assembled from a
traceback run free of `NONE` and of mid-path `SUFFIX_CLIP`. -/
theorem compute_inv (s t : List ℕ) (p : Scoring) (r : AlignmentResult)
    (hr : compute s t p = some r) :
    ∃ i0 Q plen, t ≠ [] ∧ (bestScan s t p).2 = some i0 ∧ i0 ≤ s.length ∧
      r = { score := (Sf s t p i0 t.length).score
            s_range0 := (i0 : Int) -
              (countMSI ((Sf s t p i0 t.length).mov :: Q) : Int)
            s_range1 := (i0 : Int)
            t_range0 := 0
            t_range1 := (t.length : Int)
            moves := Q.reverse ++ [(Sf s t p i0 t.length).mov]
            prefix_clip_length := plen
            suffix_clip_length := clipf s t p i0 } ∧
      (∀ mv ∈ Q, mv ≠ Moves.NONE ∧ mv ≠ Moves.SUFFIX_CLIP) ∧
      countMSI ((Sf s t p i0 t.length).mov :: Q) ≤ i0 + 1 := by
  by_cases ht : t = []
  · subst ht
    rw [compute_nil] at hr
    exact Option.noConfusion hr
  · cases hbs : (bestScan s t p).2 with
    | none =>
      unfold compute at hr
      simp only [hbs] at hr
      exact Option.noConfusion hr
    | some i0 =>
      obtain ⟨Q, plen, e1, e2, e3, _, _⟩ := compute_run s t p i0 ht hbs
      rw [countMSI_rev_concat Q ((Sf s t p i0 t.length).mov)] at e1
      rw [e1] at hr
      have hre := Option.some.inj hr
      obtain ⟨hi0le, _, _, _⟩ := bestScan_some s t p i0 hbs
      exact ⟨i0, Q, plen, ht, rfl, hi0le, hre.symm, e2, e3⟩

/-- **C7** (confirmed): for non-empty `s` and `t`, whenever the
best-row scan succeeds (the only case in which the Rust code reaches
the traceback at all), the traceback terminates with a non-empty move
list that contains no `NONE` sentinel, so the panicking arm of the
`s_range[0]` loop is unreachable. -/
theorem C7_theorem (s t : List ℕ) (p : Scoring) (i0 : ℕ) (_hs : s ≠ [])
    (ht : t ≠ []) (hbs : (bestScan s t p).2 = some i0) :
    ∃ r, compute s t p = some r ∧ r.moves ≠ [] ∧ Moves.NONE ∉ r.moves := by
  obtain ⟨Q, plen, e1, e2, _, _, _⟩ := compute_run s t p i0 ht hbs
  refine ⟨_, e1, ?_, ?_⟩
  · show Q.reverse ++ [(Sf s t p i0 t.length).mov] ≠ []
    simp
  · show Moves.NONE ∉ Q.reverse ++ [(Sf s t p i0 t.length).mov]
    intro hmem
    rcases List.mem_append.mp hmem with hm1 | hm2
    · rw [List.mem_reverse] at hm1
      exact (e2 _ hm1).1 rfl
    · rw [List.mem_singleton] at hm2
      exact first_ne_none s t p i0 ht hbs hm2.symm

/-- Witness for `C7_theorem` on a concrete alignment instance. -/
theorem C7_witness :
    ∃ r, compute [67, 71] [71, 65] ⟨-5, -1, 2, -2, -5⟩ = some r ∧
      r.moves ≠ [] ∧ Moves.NONE ∉ r.moves :=
  C7_theorem [67, 71] [71, 65] ⟨-5, -1, 2, -2, -5⟩ 2 (by decide) (by decide)
    (by decide)

/-- **C5** (confirmed): in every returned traceback of non-empty `s`
and `t`, `SUFFIX_CLIP` never occurs before the last element of the
oldest-first move list; if it occurs at all it is exactly that last
element (the first state of the backward walk), and the cell the walk
resumes at after applying the clip offset does not itself store
`SUFFIX_CLIP`. -/
theorem C5_theorem (s t : List ℕ) (p : Scoring) (i0 : ℕ) (_hs : s ≠ [])
    (ht : t ≠ []) (hbs : (bestScan s t p).2 = some i0) :
    ∃ r, compute s t p = some r ∧
      (∀ mv ∈ r.moves.dropLast, mv ≠ Moves.SUFFIX_CLIP) ∧
      (Moves.SUFFIX_CLIP ∈ r.moves →
        r.moves.getLast? = some Moves.SUFFIX_CLIP ∧
        (Sf s t p i0 (t.length - r.suffix_clip_length)).mov ≠
          Moves.SUFFIX_CLIP) := by
  obtain ⟨Q, plen, e1, e2, _, e4, _⟩ := compute_run s t p i0 ht hbs
  refine ⟨_, e1, ?_, ?_⟩
  · show ∀ mv ∈ (Q.reverse ++ [(Sf s t p i0 t.length).mov]).dropLast,
      mv ≠ Moves.SUFFIX_CLIP
    rw [List.dropLast_concat]
    intro mv hmv
    rw [List.mem_reverse] at hmv
    exact (e2 mv hmv).2
  · intro hmem
    have hfirst : (Sf s t p i0 t.length).mov = Moves.SUFFIX_CLIP := by
      have hmem2 : Moves.SUFFIX_CLIP ∈
          Q.reverse ++ [(Sf s t p i0 t.length).mov] := hmem
      rcases List.mem_append.mp hmem2 with hm1 | hm2
      · rw [List.mem_reverse] at hm1
        exact absurd rfl (e2 _ hm1).2
      · exact (List.mem_singleton.mp hm2).symm
    obtain ⟨_, _, _, hns⟩ := e4 hfirst
    constructor
    · show (Q.reverse ++ [(Sf s t p i0 t.length).mov]).getLast? =
        some Moves.SUFFIX_CLIP
      rw [List.getLast?_concat, hfirst]
    · exact hns

/-- Witness for `C5_theorem` on an instance whose best alignment ends
in a suffix clip. -/
theorem C5_witness :
    ∃ r, compute [67, 71] [71, 65] ⟨-5, -1, 2, -2, -5⟩ = some r ∧
      (∀ mv ∈ r.moves.dropLast, mv ≠ Moves.SUFFIX_CLIP) ∧
      (Moves.SUFFIX_CLIP ∈ r.moves →
        r.moves.getLast? = some Moves.SUFFIX_CLIP ∧
        (Sf [67, 71] [71, 65] ⟨-5, -1, 2, -2, -5⟩ 2
          ([71, 65].length - r.suffix_clip_length)).mov ≠
          Moves.SUFFIX_CLIP) :=
  C5_theorem [67, 71] [71, 65] ⟨-5, -1, 2, -2, -5⟩ 2 (by decide) (by decide)
    (by decide)

/-- **C10** (corrected): a successful `compute` has
`-1 ≤ s_range[0] ≤ s_range[1] ≤ |s|` and `0 ≤ s_range[1]`; the claimed
lower bound `0 ≤ s_range[0]` is refuted by `C10_counterexample`, where
an insert run longer than the consumed prefix drives `s_range[0]` to
`-1`. -/
theorem C10_theorem (s t : List ℕ) (p : Scoring) (r : AlignmentResult)
    (hr : compute s t p = some r) :
    -1 ≤ r.s_range0 ∧ r.s_range0 ≤ r.s_range1 ∧
      r.s_range1 ≤ (s.length : Int) ∧ 0 ≤ r.s_range1 := by
  obtain ⟨i0, Q, plen, _, _, hi0le, hre, _, e3⟩ := compute_inv s t p r hr
  subst hre
  refine ⟨?_, ?_, ?_, ?_⟩
  · show -1 ≤ (i0 : Int) - (countMSI ((Sf s t p i0 t.length).mov :: Q) : Int)
    omega
  · show (i0 : Int) - (countMSI ((Sf s t p i0 t.length).mov :: Q) : Int) ≤
      (i0 : Int)
    omega
  · show (i0 : Int) ≤ (s.length : Int)
    exact_mod_cast hi0le
  · show (0 : Int) ≤ (i0 : Int)
    omega

/-- Witness for `C10_theorem` on a concrete alignment instance. -/
theorem C10_witness :
    -1 ≤ AlignmentResult.s_range0 ⟨-3, 1, 2, 0, 2,
        [Moves.MATCH, Moves.SUFFIX_CLIP], 0, 1⟩ ∧
      AlignmentResult.s_range0 ⟨-3, 1, 2, 0, 2,
        [Moves.MATCH, Moves.SUFFIX_CLIP], 0, 1⟩ ≤
        AlignmentResult.s_range1 ⟨-3, 1, 2, 0, 2,
          [Moves.MATCH, Moves.SUFFIX_CLIP], 0, 1⟩ ∧
      AlignmentResult.s_range1 ⟨-3, 1, 2, 0, 2,
        [Moves.MATCH, Moves.SUFFIX_CLIP], 0, 1⟩ ≤ (([67, 71] : List ℕ).length : Int) ∧
      0 ≤ AlignmentResult.s_range1 ⟨-3, 1, 2, 0, 2,
        [Moves.MATCH, Moves.SUFFIX_CLIP], 0, 1⟩ :=
  C10_theorem [67, 71] [71, 65] ⟨-5, -1, 2, -2, -5⟩
    ⟨-3, 1, 2, 0, 2, [Moves.MATCH, Moves.SUFFIX_CLIP], 0, 1⟩ (by decide)

/-- Counterexample to the claimed `0 ≤ s_range[0]`: three inserts are
traced back from row `2`, so `s_range[0] = 2 - 3 = -1` — exactly the
placeholder value the claim says can never survive. -/
theorem C10_counterexample :
    compute [1, 1] [2]
        ⟨-1073741824, 1, -1073741825, -1073741825, -1073741826⟩ =
      some ⟨-1073741822, -1, 2, 0, 1,
        [Moves.INSERT, Moves.INSERT, Moves.INSERT], 0, 0⟩ ∧
      ¬ (0 ≤ (-1 : Int)) := by
  decide

/-- **C6** (confirmed): for every successful `compute`,
`s_range[1] - s_range[0]` equals the number of `MATCH` moves plus the
number of `SUBS` moves plus the number of `INSERT` moves of the
returned list. -/
theorem C6_theorem (s t : List ℕ) (p : Scoring) (r : AlignmentResult)
    (hr : compute s t p = some r) :
    r.s_range1 - r.s_range0 =
      ((r.moves.count Moves.MATCH + r.moves.count Moves.SUBS +
        r.moves.count Moves.INSERT : ℕ) : Int) := by
  have key : ∀ l : List Moves, countMSI l =
      l.count Moves.MATCH + l.count Moves.SUBS + l.count Moves.INSERT := by
    intro l
    induction l with
    | nil => rfl
    | cons a l2 ih =>
      rw [countMSI_cons, ih]
      cases a <;> simp [List.count_cons, isMSI] <;> omega
  obtain ⟨i0, Q, plen, _, _, _, hre, _, _⟩ := compute_inv s t p r hr
  subst hre
  show (i0 : Int) -
      ((i0 : Int) - (countMSI ((Sf s t p i0 t.length).mov :: Q) : Int)) = _
  rw [show ((Q.reverse ++ [(Sf s t p i0 t.length).mov]).count Moves.MATCH +
      (Q.reverse ++ [(Sf s t p i0 t.length).mov]).count Moves.SUBS +
      (Q.reverse ++ [(Sf s t p i0 t.length).mov]).count Moves.INSERT : ℕ) =
      countMSI (Q.reverse ++ [(Sf s t p i0 t.length).mov]) from
    (key _).symm]
  rw [countMSI_rev_concat]
  omega

/-- Witness for `C6_theorem` on a concrete alignment instance. -/
theorem C6_witness :
    AlignmentResult.s_range1 ⟨-3, 1, 2, 0, 2,
        [Moves.MATCH, Moves.SUFFIX_CLIP], 0, 1⟩ -
      AlignmentResult.s_range0 ⟨-3, 1, 2, 0, 2,
        [Moves.MATCH, Moves.SUFFIX_CLIP], 0, 1⟩ =
      ((([Moves.MATCH, Moves.SUFFIX_CLIP] : List Moves).count Moves.MATCH +
        ([Moves.MATCH, Moves.SUFFIX_CLIP] : List Moves).count Moves.SUBS +
        ([Moves.MATCH, Moves.SUFFIX_CLIP] : List Moves).count Moves.INSERT :
          ℕ) : Int) :=
  C6_theorem [67, 71] [71, 65] ⟨-5, -1, 2, -2, -5⟩
    ⟨-3, 1, 2, 0, 2, [Moves.MATCH, Moves.SUFFIX_CLIP], 0, 1⟩ (by decide)

/-- **C8** (corrected): an empty read `t` does not fail fast — the
degenerate matrix is traced back and the Rust code panics in the
`s_range[0]` loop (modeled as `none`); an empty reference `s` does not
fail at all: whenever row `0`'s final cell beats the `NEGATIVE_INF`
initialization, a degenerate alignment record is returned
(`C8_counterexample` shows one). -/
theorem C8_theorem :
    (∀ (s : List ℕ) (p : Scoring), compute s [] p = none) ∧
    (∀ (t : List ℕ) (p : Scoring), t ≠ [] →
      NEGATIVE_INF < max (p.gap_inititation_score +
        p.gap_unit_score * (t.length : Int)) p.soft_clipping_score →
      ∃ r, compute [] t p = some r) := by
  constructor
  · exact fun s p => compute_nil s p
  · intro t p ht hpos
    have htn : 1 ≤ t.length := List.length_pos.mpr ht
    have hscore : (Sf [] t p 0 t.length).score =
        max (p.gap_inititation_score + p.gap_unit_score * (t.length : Int))
          p.soft_clipping_score := by
      rw [Sf_zero [] t p t.length (le_refl _)]
      unfold row0S
      rw [if_neg (by omega)]
      rw [cellMax_score]
    have hbs : (bestScan [] t p).2 = some 0 := by
      unfold bestScan
      rw [show List.range (([] : List ℕ).length + 1) = [0] from rfl]
      show (bestStep [] t p (NEGATIVE_INF, none) 0).2 = some 0
      unfold bestStep
      rw [if_pos (by rw [hscore]; exact hpos)]
    obtain ⟨Q, plen, e1, _, _, _, _⟩ := compute_run [] t p 0 ht hbs
    exact ⟨_, e1⟩

/-- Witness for `C8_theorem`: both behaviors on concrete inputs. -/
theorem C8_witness :
    compute [2] [] ⟨-1, -1, 1, -1, -2⟩ = none ∧
      ∃ r, compute [] [2] ⟨-1, -1, 1, -1, -2⟩ = some r :=
  ⟨C8_theorem.1 [2] ⟨-1, -1, 1, -1, -2⟩,
   C8_theorem.2 [2] ⟨-1, -1, 1, -1, -2⟩ (by decide) (by decide)⟩

/-- Counterexample to the claimed fail-fast behavior: with an empty
reference `s`, `compute` returns a fully-built degenerate alignment
record instead of signaling the precondition violation. -/
theorem C8_counterexample :
    compute [] [1] ⟨-1, -1, 1, -1, -2⟩ =
      some ⟨-2, 0, 0, 0, 1, [Moves.PREFIX_CLIP], 1, 0⟩ := by
  decide

/-! ### Independent re-scoring of a move list (the specification's
affine accounting) and the walk-order value invariant -/

/-- The charge of one consumed move, parameterized by the neighboring
move that decides whether a gap run is being opened: `gap_unit` plus
`gap_init` unless the neighbor continues the same gap run. -/
def chgW (p : Scoring) (mv nxt : Moves) : Int :=
  match mv with
  | Moves.MATCH => p.match_score
  | Moves.SUBS => p.mismatch_score
  | Moves.INSERT => p.gap_unit_score +
      (if nxt = Moves.INSERT then 0 else p.gap_inititation_score)
  | Moves.DELETE => p.gap_unit_score +
      (if nxt = Moves.DELETE then 0 else p.gap_inititation_score)
  | Moves.PREFIX_CLIP => p.soft_clipping_score
  | Moves.SUFFIX_CLIP => p.soft_clipping_score
  | Moves.NONE => 0

/-- Re-score an oldest-first move list: each `MATCH` pays
`match_score`, each `SUBS` pays `mismatch_score`, a maximal run of `k`
consecutive `INSERT`s (or `DELETE`s) pays
`gap_init + gap_unit * k`, and each clip pays `soft_clipping_score`;
`prev` is the preceding move. -/
def rr (p : Scoring) (prev : Moves) : List Moves → Int
  | [] => 0
  | mv :: rest => chgW p mv prev + rr p mv rest

/-- The specification's independent re-scoring of a returned
(oldest-first) move list. -/
def rescore (p : Scoring) (l : List Moves) : Int := rr p Moves.NONE l

/-- The same total, computed over the walk-order (newest-first) list:
the run-opening charge of a gap move is decided by the *next* consumed
move. -/
def rWalk (p : Scoring) : List Moves → Int
  | [] => 0
  | [mv] => chgW p mv Moves.NONE
  | mv :: nx :: rest => chgW p mv nx + rWalk p (nx :: rest)

theorem rr_concat (p : Scoring) (xs : List Moves) (c mv : Moves) :
    rr p c (xs ++ [mv]) = rr p c xs + chgW p mv (xs.getLastD c) := by
  induction xs generalizing c with
  | nil =>
    show chgW p mv c + 0 = 0 + chgW p mv c
    omega
  | cons a xs2 ih =>
    show chgW p a c + rr p a (xs2 ++ [mv]) = chgW p a c + rr p a xs2 + _
    rw [ih a, List.getLastD_cons]
    omega

theorem rWalk_cons_cons (p : Scoring) (a b : Moves) (l : List Moves) :
    rWalk p (a :: b :: l) = chgW p a b + rWalk p (b :: l) := rfl

/-- Bridge: re-scoring the oldest-first list equals the walk-order
total. -/
theorem rescore_reverse (p : Scoring) (l : List Moves) :
    rescore p l.reverse = rWalk p l := by
  induction l with
  | nil => rfl
  | cons mv rest ih =>
    show rr p Moves.NONE (mv :: rest).reverse = _
    rw [List.reverse_cons, rr_concat]
    cases rest with
    | nil =>
      show 0 + chgW p mv Moves.NONE = chgW p mv Moves.NONE
      omega
    | cons nx r2 =>
      rw [List.reverse_cons, List.getLastD_concat]
      rw [show rr p Moves.NONE (r2.reverse ++ [nx]) =
        rescore p (nx :: r2).reverse from by rw [List.reverse_cons]; rfl]
      rw [ih, rWalk_cons_cons]
      omega

/-- The matrix value owned by a traceback state. -/
def gval (s t : List ℕ) (p : Scoring) : Moves → ℕ → ℕ → Int
  | Moves.MATCH, i, j => (Mf s t p i j).score
  | Moves.SUBS, i, j => (Mf s t p i j).score
  | Moves.INSERT, i, j => (If s t p i j).score
  | Moves.DELETE, i, j => (Df s t p i j).score
  | Moves.PREFIX_CLIP, _, _ => p.soft_clipping_score
  | Moves.SUFFIX_CLIP, _, _ => 0
  | Moves.NONE, _, _ => 0

/-- A `Score` cell whose move is neither `NONE` nor `SUFFIX_CLIP`
agrees with the matrix value of the state its move names. -/
theorem gval_S (s t : List ℕ) (p : Scoring) (i j : ℕ) (hj : j ≤ t.length)
    (hm1 : (Sf s t p i j).mov ≠ Moves.NONE)
    (hm2 : (Sf s t p i j).mov ≠ Moves.SUFFIX_CLIP) :
    gval s t p ((Sf s t p i j).mov) i j = (Sf s t p i j).score := by
  cases hmv : (Sf s t p i j).mov with
  | MATCH => exact (S_mov_match s t p i j hj hmv).2.2.1.symm
  | SUBS => exact (S_mov_subs s t p i j hj hmv).2.2.1.symm
  | INSERT => exact (S_mov_insert s t p i j hj hmv).2.2.symm
  | DELETE => exact (S_mov_delete s t p i j hj hmv).2.symm
  | PREFIX_CLIP => exact (S_mov_prefix_clip s t p i j hj hmv).2.symm
  | SUFFIX_CLIP => exact absurd hmv hm2
  | NONE => exact absurd hmv hm1

/-- A `Score` cell whose move is neither `NONE` nor `SUFFIX_CLIP`
scores above the sentinel, provided the soft-clip penalty does. -/
theorem S_pos (s t : List ℕ) (p : Scoring) (i j : ℕ) (h2 : 1 ≤ j)
    (h3 : j ≤ t.length) (hsc : NEGATIVE_INF < p.soft_clipping_score)
    (hm1 : (Sf s t p i j).mov ≠ Moves.NONE)
    (hm2 : (Sf s t p i j).mov ≠ Moves.SUFFIX_CLIP) :
    NEGATIVE_INF < (Sf s t p i j).score := by
  cases i with
  | zero =>
    have := Sf_row0_ge_sc s t p j h2 h3
    linarith
  | succ i2 =>
    rcases Nat.lt_or_ge j t.length with hjlt | hjge
    · have := Sf_int_ge_sc s t p (i2 + 1) j (by omega) h2 hjlt
      linarith
    · have hjeq : j = t.length := by omega
      subst hjeq
      exact (Sfin_temp s t p i2 (by omega) hm1 hm2).2.2.2

/-- The `match_matrix` score recurrence in subtraction form. -/
theorem Mf_score (s t : List ℕ) (p : Scoring) (i j : ℕ) (h1 : 1 ≤ i)
    (h2 : 1 ≤ j) (h3 : j ≤ t.length) :
    (Mf s t p i j).score = (Sf s t p (i - 1) (j - 1)).score +
      (if s.getD (i - 1) 0 = t.getD (j - 1) 0
       then p.match_score else p.mismatch_score) := by
  obtain ⟨i2, rfl⟩ : ∃ i2, i = i2 + 1 := ⟨i - 1, by omega⟩
  obtain ⟨k, rfl⟩ : ∃ k, j = k + 1 := ⟨j - 1, by omega⟩
  simp only [Nat.add_sub_cancel]
  rw [Mf_rec s t p i2 k h3]

set_option maxHeartbeats 1600000 in
/-- The traceback walk, with its value accounting (IND-B).  Under
non-positive gap parameters and a soft-clip penalty above the
sentinel, from any in-range state carrying the value, tag and chain
invariants, the loop terminates and the walk-order re-scoring of the
consumed moves equals the matrix value of the current state. -/
theorem tb_value (s t : List ℕ) (p : Scoring) (clip : ℕ)
    (hgi : p.gap_inititation_score ≤ 0) (hgu : p.gap_unit_score ≤ 0)
    (hsc : NEGATIVE_INF < p.soft_clipping_score) :
    ∀ fuel i j last acc, i + j + 1 ≤ fuel → 1 ≤ j → j ≤ t.length →
      NEGATIVE_INF < gval s t p last i j →
      (last = Moves.MATCH → s.getD (i - 1) 0 = t.getD (j - 1) 0) →
      (last = Moves.SUBS → ¬ s.getD (i - 1) 0 = t.getD (j - 1) 0) →
      (last = Moves.INSERT → j = t.length → 1 ≤ i → Pchain s t p i) →
      last ≠ Moves.SUFFIX_CLIP → last ≠ Moves.NONE →
      ∃ Q plen, tbLoop s t p clip fuel i j last acc =
          some (Q.reverse ++ acc, plen) ∧
        rWalk p (last :: Q) = gval s t p last i j := by
  intro fuel
  induction fuel with
  | zero =>
    intro i j last acc hf
    exact absurd hf (by omega)
  | succ f ih =>
    intro i j last acc hf hj1 hj hval htm hts hch hlsuf hlnone
    cases last with
    | NONE => exact absurd rfl hlnone
    | SUFFIX_CLIP => exact absurd rfl hlsuf
    | PREFIX_CLIP =>
      refine ⟨[], j, rfl, ?_⟩
      show chgW p Moves.PREFIX_CLIP Moves.NONE = gval s t p Moves.PREFIX_CLIP i j
      rfl
    | MATCH =>
      have hvalM : NEGATIVE_INF < (Mf s t p i j).score := hval
      have he : tbLoop s t p clip (f + 1) i j Moves.MATCH acc =
          if (Mf s t p i j).mov = Moves.NONE then some (acc, 0)
          else tbLoop s t p clip f (i - 1) (j - 1) ((Mf s t p i j).mov)
            ((Mf s t p i j).mov :: acc) := rfl
      have hi1 : 1 ≤ i := by
        by_contra h0
        rw [show i = 0 by omega, Mf_zero s t p j hj, if_neg (by omega)] at hvalM
        exact lt_irrefl _ hvalM
      have hms := Mf_score s t p i j hi1 hj1 hj
      have hmv := Mf_mov s t p i j hi1 hj1 hj
      rw [hmv] at he
      by_cases hnx : (Sf s t p (i - 1) (j - 1)).mov = Moves.NONE
      · rcases S_mov_none s t p (i - 1) (j - 1) (by omega) hnx
          with h0 | ⟨_, hJ, _, _⟩
        · refine ⟨[], 0, by rw [he, if_pos hnx]; rfl, ?_⟩
          show p.match_score = (Mf s t p i j).score
          rw [hms, h0, if_pos (htm rfl)]
          omega
        · exact absurd hJ (by omega)
      · have hj2 : 2 ≤ j := by
          by_contra h0
          exact hnx (by rw [show j - 1 = 0 by omega, Sf_col0])
        have hnsuf : (Sf s t p (i - 1) (j - 1)).mov ≠ Moves.SUFFIX_CLIP := by
          intro hB
          obtain ⟨_, hJ, _⟩ := S_mov_suffix_clip s t p (i - 1) (j - 1)
            (by omega) hB
          omega
        have hvg : NEGATIVE_INF <
            gval s t p ((Sf s t p (i - 1) (j - 1)).mov) (i - 1) (j - 1) := by
          rw [gval_S s t p (i - 1) (j - 1) (by omega) hnx hnsuf]
          exact S_pos s t p (i - 1) (j - 1) (by omega) (by omega) hsc hnx hnsuf
        obtain ⟨Q', plen, e1, e2⟩ := ih (i - 1) (j - 1)
          ((Sf s t p (i - 1) (j - 1)).mov)
          ((Sf s t p (i - 1) (j - 1)).mov :: acc) (by omega) (by omega)
          (by omega) hvg
          (fun hmm => (S_mov_match s t p (i - 1) (j - 1) (by omega) hmm).2.2.2)
          (fun hmm => (S_mov_subs s t p (i - 1) (j - 1) (by omega) hmm).2.2.2)
          (fun _ hJ _ => absurd hJ (by omega)) hnsuf hnx
        refine ⟨(Sf s t p (i - 1) (j - 1)).mov :: Q', plen, ?_, ?_⟩
        · rw [he, if_neg hnx, e1, List.reverse_cons, List.append_assoc]
          rfl
        · rw [rWalk_cons_cons, e2,
            gval_S s t p (i - 1) (j - 1) (by omega) hnx hnsuf]
          show p.match_score + (Sf s t p (i - 1) (j - 1)).score =
            (Mf s t p i j).score
          rw [hms, if_pos (htm rfl)]
          omega
    | SUBS =>
      have hvalM : NEGATIVE_INF < (Mf s t p i j).score := hval
      have he : tbLoop s t p clip (f + 1) i j Moves.SUBS acc =
          if (Mf s t p i j).mov = Moves.NONE then some (acc, 0)
          else tbLoop s t p clip f (i - 1) (j - 1) ((Mf s t p i j).mov)
            ((Mf s t p i j).mov :: acc) := rfl
      have hi1 : 1 ≤ i := by
        by_contra h0
        rw [show i = 0 by omega, Mf_zero s t p j hj, if_neg (by omega)] at hvalM
        exact lt_irrefl _ hvalM
      have hms := Mf_score s t p i j hi1 hj1 hj
      have hmv := Mf_mov s t p i j hi1 hj1 hj
      rw [hmv] at he
      by_cases hnx : (Sf s t p (i - 1) (j - 1)).mov = Moves.NONE
      · rcases S_mov_none s t p (i - 1) (j - 1) (by omega) hnx
          with h0 | ⟨_, hJ, _, _⟩
        · refine ⟨[], 0, by rw [he, if_pos hnx]; rfl, ?_⟩
          show p.mismatch_score = (Mf s t p i j).score
          rw [hms, h0, if_neg (hts rfl)]
          omega
        · exact absurd hJ (by omega)
      · have hj2 : 2 ≤ j := by
          by_contra h0
          exact hnx (by rw [show j - 1 = 0 by omega, Sf_col0])
        have hnsuf : (Sf s t p (i - 1) (j - 1)).mov ≠ Moves.SUFFIX_CLIP := by
          intro hB
          obtain ⟨_, hJ, _⟩ := S_mov_suffix_clip s t p (i - 1) (j - 1)
            (by omega) hB
          omega
        have hvg : NEGATIVE_INF <
            gval s t p ((Sf s t p (i - 1) (j - 1)).mov) (i - 1) (j - 1) := by
          rw [gval_S s t p (i - 1) (j - 1) (by omega) hnx hnsuf]
          exact S_pos s t p (i - 1) (j - 1) (by omega) (by omega) hsc hnx hnsuf
        obtain ⟨Q', plen, e1, e2⟩ := ih (i - 1) (j - 1)
          ((Sf s t p (i - 1) (j - 1)).mov)
          ((Sf s t p (i - 1) (j - 1)).mov :: acc) (by omega) (by omega)
          (by omega) hvg
          (fun hmm => (S_mov_match s t p (i - 1) (j - 1) (by omega) hmm).2.2.2)
          (fun hmm => (S_mov_subs s t p (i - 1) (j - 1) (by omega) hmm).2.2.2)
          (fun _ hJ _ => absurd hJ (by omega)) hnsuf hnx
        refine ⟨(Sf s t p (i - 1) (j - 1)).mov :: Q', plen, ?_, ?_⟩
        · rw [he, if_neg hnx, e1, List.reverse_cons, List.append_assoc]
          rfl
        · rw [rWalk_cons_cons, e2,
            gval_S s t p (i - 1) (j - 1) (by omega) hnx hnsuf]
          show p.mismatch_score + (Sf s t p (i - 1) (j - 1)).score =
            (Mf s t p i j).score
          rw [hms, if_neg (hts rfl)]
          omega
    | INSERT =>
      have hvalI : NEGATIVE_INF < (If s t p i j).score := hval
      have he : tbLoop s t p clip (f + 1) i j Moves.INSERT acc =
          if (If s t p i j).mov = Moves.NONE then some (acc, 0)
          else tbLoop s t p clip f (i - 1) j ((If s t p i j).mov)
            ((If s t p i j).mov :: acc) := rfl
      have hi1 : 1 ≤ i := by
        by_contra h0
        rw [show i = 0 by omega, If_zero s t p j hj] at hvalI
        exact lt_irrefl _ hvalI
      by_cases hnx : (If s t p i j).mov = Moves.NONE
      · obtain ⟨hop, hmov⟩ := If_mov_other s t p i j hi1 hj1 hj
          (by rw [hnx]; simp)
        have hSn : (Sf s t p (i - 1) j).mov = Moves.NONE := by rw [hmov, hnx]
        rcases S_mov_none s t p (i - 1) j hj hSn with h0 | ⟨_, _, _, hcell⟩
        · refine ⟨[], 0, by rw [he, if_pos hnx]; rfl, ?_⟩
          show p.gap_unit_score + (if Moves.NONE = Moves.INSERT then 0
            else p.gap_inititation_score) = (If s t p i j).score
          rw [if_neg (by decide), hop, h0]
          omega
        · exfalso
          have hcs : (Sf s t p (i - 1) j).score = NEGATIVE_INF := by
            rw [hcell]
            rfl
          rw [hop, hcs] at hvalI
          unfold NEGATIVE_INF at hvalI
          omega
      · by_cases hI : (If s t p i j).mov = Moves.INSERT
        · -- gap continuation
          have hcont := If_mov_insert_score s t p i j hi1 hj1 hj hgi hI
          have hvS : NEGATIVE_INF < (If s t p (i - 1) j).score := by
            rw [hcont] at hvalI
            omega
          have hi2 : 2 ≤ i := by
            by_contra h0
            rw [show i - 1 = 0 by omega, If_zero s t p j hj] at hvS
            exact lt_irrefl _ hvS
          have hch' : Moves.INSERT = Moves.INSERT → j = t.length → 1 ≤ i - 1 →
              Pchain s t p (i - 1) := by
            intro _ hjt _
            exact Pchain_step s t p i hi2 (hjt ▸ hj1)
              (by rw [hjt] at hI; exact hI) (hch rfl hjt hi1)
          obtain ⟨Q', plen, e1, e2⟩ := ih (i - 1) j Moves.INSERT
            (Moves.INSERT :: acc) (by omega) hj1 hj hvS
            (fun h => absurd h (by decide)) (fun h => absurd h (by decide))
            hch' (by decide) (by decide)
          rw [hI] at he
          refine ⟨Moves.INSERT :: Q', plen, ?_, ?_⟩
          · rw [he, if_neg (show Moves.INSERT ≠ Moves.NONE by decide), e1,
              List.reverse_cons, List.append_assoc]
            rfl
          · rw [rWalk_cons_cons, e2]
            show p.gap_unit_score + (if Moves.INSERT = Moves.INSERT then 0
              else p.gap_inititation_score) + (If s t p (i - 1) j).score =
              (If s t p i j).score
            rw [if_pos rfl, hcont]
            omega
        · -- gap opening from another state
          obtain ⟨hop, hmov⟩ := If_mov_other s t p i j hi1 hj1 hj hI
          have hnx' : (Sf s t p (i - 1) j).mov ≠ Moves.NONE := by
            rw [hmov]
            exact hnx
          have hnsuf : (Sf s t p (i - 1) j).mov ≠ Moves.SUFFIX_CLIP := by
            intro hB
            by_cases hjt : j = t.length
            · exact no_suffix_insert s t p i hi1 (hjt ▸ hj1)
                (hch rfl hjt hi1) (by rw [← hjt, ← hmov]; exact hB)
            · obtain ⟨_, hJ, _⟩ := S_mov_suffix_clip s t p (i - 1) j hj hB
              exact hjt hJ
          have hvg : NEGATIVE_INF <
              gval s t p ((Sf s t p (i - 1) j).mov) (i - 1) j := by
            rw [gval_S s t p (i - 1) j hj hnx' hnsuf]
            exact S_pos s t p (i - 1) j hj1 hj hsc hnx' hnsuf
          obtain ⟨Q', plen, e1, e2⟩ := ih (i - 1) j
            ((Sf s t p (i - 1) j).mov) ((Sf s t p (i - 1) j).mov :: acc)
            (by omega) hj1 hj hvg
            (fun hmm => (S_mov_match s t p (i - 1) j hj hmm).2.2.2)
            (fun hmm => (S_mov_subs s t p (i - 1) j hj hmm).2.2.2)
            (fun hI2 => absurd hI2 (by rw [hmov]; exact hI)) hnsuf hnx'
          rw [← hmov] at he
          refine ⟨(Sf s t p (i - 1) j).mov :: Q', plen, ?_, ?_⟩
          · rw [he, if_neg hnx', e1, List.reverse_cons, List.append_assoc]
            rfl
          · rw [rWalk_cons_cons, e2, gval_S s t p (i - 1) j hj hnx' hnsuf]
            show p.gap_unit_score + (if (Sf s t p (i - 1) j).mov = Moves.INSERT
              then 0 else p.gap_inititation_score) +
              (Sf s t p (i - 1) j).score = (If s t p i j).score
            rw [if_neg (by rw [hmov]; exact hI), hop]
            omega
    | DELETE =>
      have hvalD : NEGATIVE_INF < (Df s t p i j).score := hval
      have he : tbLoop s t p clip (f + 1) i j Moves.DELETE acc =
          if (Df s t p i j).mov = Moves.NONE then some (acc, 0)
          else tbLoop s t p clip f i (j - 1) ((Df s t p i j).mov)
            ((Df s t p i j).mov :: acc) := rfl
      by_cases hnx : (Df s t p i j).mov = Moves.NONE
      · obtain ⟨hop, hmov⟩ := Df_mov_other s t p i j hj1 hj
          (by rw [hnx]; simp)
        have hSn : (Sf s t p i (j - 1)).mov = Moves.NONE := by rw [hmov, hnx]
        rcases S_mov_none s t p i (j - 1) (by omega) hSn
          with h0 | ⟨_, hJ, _, _⟩
        · refine ⟨[], 0, by rw [he, if_pos hnx]; rfl, ?_⟩
          show p.gap_unit_score + (if Moves.NONE = Moves.DELETE then 0
            else p.gap_inititation_score) = (Df s t p i j).score
          rw [if_neg (by decide), hop, h0]
          omega
        · exact absurd hJ (by omega)
      · by_cases hD : (Df s t p i j).mov = Moves.DELETE
        · -- gap continuation
          have hcont := Df_mov_delete_score s t p i j hj1 hj hgi hD
          have hvS : NEGATIVE_INF < (Df s t p i (j - 1)).score := by
            rw [hcont] at hvalD
            omega
          have hj2 : 2 ≤ j := by
            by_contra h0
            rw [show j - 1 = 0 by omega, Df_col0] at hvS
            exact lt_irrefl _ hvS
          obtain ⟨Q', plen, e1, e2⟩ := ih i (j - 1) Moves.DELETE
            (Moves.DELETE :: acc) (by omega) (by omega) (by omega) hvS
            (fun h => absurd h (by decide)) (fun h => absurd h (by decide))
            (fun h => absurd h (by decide)) (by decide) (by decide)
          rw [hD] at he
          refine ⟨Moves.DELETE :: Q', plen, ?_, ?_⟩
          · rw [he, if_neg (show Moves.DELETE ≠ Moves.NONE by decide), e1,
              List.reverse_cons, List.append_assoc]
            rfl
          · rw [rWalk_cons_cons, e2]
            show p.gap_unit_score + (if Moves.DELETE = Moves.DELETE then 0
              else p.gap_inititation_score) + (Df s t p i (j - 1)).score =
              (Df s t p i j).score
            rw [if_pos rfl, hcont]
            omega
        · -- gap opening from another state
          obtain ⟨hop, hmov⟩ := Df_mov_other s t p i j hj1 hj hD
          have hnx' : (Sf s t p i (j - 1)).mov ≠ Moves.NONE := by
            rw [hmov]
            exact hnx
          have hj2 : 2 ≤ j := by
            by_contra h0
            exact hnx' (by rw [show j - 1 = 0 by omega, Sf_col0])
          have hnsuf : (Sf s t p i (j - 1)).mov ≠ Moves.SUFFIX_CLIP := by
            intro hB
            obtain ⟨_, hJ, _⟩ := S_mov_suffix_clip s t p i (j - 1)
              (by omega) hB
            omega
          have hvg : NEGATIVE_INF <
              gval s t p ((Sf s t p i (j - 1)).mov) i (j - 1) := by
            rw [gval_S s t p i (j - 1) (by omega) hnx' hnsuf]
            exact S_pos s t p i (j - 1) (by omega) (by omega) hsc hnx' hnsuf
          obtain ⟨Q', plen, e1, e2⟩ := ih i (j - 1)
            ((Sf s t p i (j - 1)).mov) ((Sf s t p i (j - 1)).mov :: acc)
            (by omega) (by omega) (by omega) hvg
            (fun hmm => (S_mov_match s t p i (j - 1) (by omega) hmm).2.2.2)
            (fun hmm => (S_mov_subs s t p i (j - 1) (by omega) hmm).2.2.2)
            (fun _ hJ _ => absurd hJ (by omega)) hnsuf hnx'
          rw [← hmov] at he
          refine ⟨(Sf s t p i (j - 1)).mov :: Q', plen, ?_, ?_⟩
          · rw [he, if_neg hnx', e1, List.reverse_cons, List.append_assoc]
            rfl
          · rw [rWalk_cons_cons, e2, gval_S s t p i (j - 1) (by omega) hnx' hnsuf]
            show p.gap_unit_score + (if (Sf s t p i (j - 1)).mov = Moves.DELETE
              then 0 else p.gap_inititation_score) +
              (Sf s t p i (j - 1)).score = (Df s t p i j).score
            rw [if_neg (by rw [hmov]; exact hD), hop]
            omega

set_option maxHeartbeats 1000000 in
/-- **C2** (corrected): under non-positive gap parameters and a
soft-clip penalty above the sentinel, the returned score equals the
chosen final-column `Score` cell (`s_range[1]` is that row) and equals
the independent affine re-scoring of the returned move list; without
the sign conditions the accounting fails (`C2_counterexample`: a
positive `gap_init` is collected twice across an insert run traced
through the gap-opening branch). -/
theorem C2_theorem (s t : List ℕ) (p : Scoring) (i0 : ℕ) (_hs : s ≠ [])
    (ht : t ≠ []) (hgi : p.gap_inititation_score ≤ 0)
    (hgu : p.gap_unit_score ≤ 0)
    (hsc : NEGATIVE_INF < p.soft_clipping_score)
    (hbs : (bestScan s t p).2 = some i0) :
    ∃ r, compute s t p = some r ∧ r.s_range1 = (i0 : Int) ∧
      r.score = (Sf s t p i0 t.length).score ∧
      rescore p r.moves = r.score := by
  have htn : 1 ≤ t.length := List.length_pos.mpr ht
  have hfn := first_ne_none s t p i0 ht hbs
  obtain ⟨hi0le, _, hpos, _⟩ := bestScan_some s t p i0 hbs
  obtain ⟨Q, plen, e1, e2, e3, e4, etb⟩ := compute_run s t p i0 ht hbs
  refine ⟨_, e1, rfl, rfl, ?_⟩
  show rescore p (Q.reverse ++ [(Sf s t p i0 t.length).mov]) =
    (Sf s t p i0 t.length).score
  have hbr : rescore p (Q.reverse ++ [(Sf s t p i0 t.length).mov]) =
      rWalk p ((Sf s t p i0 t.length).mov :: Q) := by
    rw [show Q.reverse ++ [(Sf s t p i0 t.length).mov] =
      ((Sf s t p i0 t.length).mov :: Q).reverse from by rw [List.reverse_cons]]
    exact rescore_reverse p _
  rw [hbr]
  by_cases hsfx : (Sf s t p i0 t.length).mov = Moves.SUFFIX_CLIP
  · obtain ⟨hi1, _, _, js, hjs1, hjs2, hclip, hseq, _⟩ :=
      S_mov_suffix_clip s t p i0 t.length (le_refl _) hsfx
    have hj2 : t.length - clipf s t p i0 = js := by omega
    have hnn : (Sf s t p i0 js).mov ≠ Moves.NONE :=
      S_int_ne_none s t p i0 js hi1 hjs1 (by omega)
    have hns : (Sf s t p i0 js).mov ≠ Moves.SUFFIX_CLIP := by
      intro hm
      obtain ⟨_, hJ, _⟩ := S_mov_suffix_clip s t p i0 js (by omega) hm
      omega
    have hvg : NEGATIVE_INF < gval s t p ((Sf s t p i0 js).mov) i0 js := by
      rw [gval_S s t p i0 js (by omega) hnn hns]
      exact S_pos s t p i0 js hjs1 (by omega) hsc hnn hns
    obtain ⟨Qb, plenb, f1, f2⟩ := tb_value s t p (clipf s t p i0) hgi hgu hsc
      (s.length + t.length) i0 js ((Sf s t p i0 js).mov)
      ((Sf s t p i0 js).mov :: [(Sf s t p i0 t.length).mov])
      (by omega) hjs1 (by omega) hvg
      (fun hmm => (S_mov_match s t p i0 js (by omega) hmm).2.2.2)
      (fun hmm => (S_mov_subs s t p i0 js (by omega) hmm).2.2.2)
      (fun _ hJ _ => absurd hJ (by omega)) hns hnn
    have hstep0 : ∀ acc0 : List Moves,
        tbLoop s t p (clipf s t p i0) (s.length + t.length + 1) i0
          t.length ((Sf s t p i0 t.length).mov) acc0 =
        tbLoop s t p (clipf s t p i0) (s.length + t.length) i0 js
          ((Sf s t p i0 js).mov) ((Sf s t p i0 js).mov :: acc0) := by
      intro acc0
      rw [hsfx]
      rw [tbLoop_suffix_step s t p (clipf s t p i0) (s.length + t.length) i0
        t.length acc0 (by rw [hj2]; exact hnn), hj2]
    have hcomb : some (Q.reverse ++ [(Sf s t p i0 t.length).mov], plen) =
        some (Qb.reverse ++
          ((Sf s t p i0 js).mov :: [(Sf s t p i0 t.length).mov]), plenb) := by
      rw [← etb, hstep0 [(Sf s t p i0 t.length).mov], f1]
    have hl := congrArg Prod.fst (Option.some.inj hcomb)
    have h6 := congrArg List.reverse hl
    simp only [List.reverse_append, List.reverse_reverse, List.reverse_cons,
      List.reverse_nil, List.nil_append, List.cons_append,
      List.singleton_append, List.cons.injEq, true_and] at h6
    rw [h6]
    rw [hsfx, rWalk_cons_cons, f2, gval_S s t p i0 js (by omega) hnn hns]
    show p.soft_clipping_score + (Sf s t p i0 js).score =
      (Sf s t p i0 t.length).score
    rw [hseq]
    omega
  · have hvg : NEGATIVE_INF <
        gval s t p ((Sf s t p i0 t.length).mov) i0 t.length := by
      rw [gval_S s t p i0 t.length (le_refl _) hfn hsfx]
      exact hpos
    obtain ⟨Qb, plenb, f1, f2⟩ := tb_value s t p (clipf s t p i0) hgi hgu hsc
      (s.length + t.length + 1) i0 t.length ((Sf s t p i0 t.length).mov)
      [(Sf s t p i0 t.length).mov] (by omega) htn (le_refl _) hvg
      (fun hmm => (S_mov_match s t p i0 t.length (le_refl _) hmm).2.2.2)
      (fun hmm => (S_mov_subs s t p i0 t.length (le_refl _) hmm).2.2.2)
      (fun hI _ hi1 => Pchain_entry s t p i0 hi1 htn hI) hsfx hfn
    have hcomb : some (Q.reverse ++ [(Sf s t p i0 t.length).mov], plen) =
        some (Qb.reverse ++ [(Sf s t p i0 t.length).mov], plenb) := by
      rw [← etb, f1]
    have hl := congrArg Prod.fst (Option.some.inj hcomb)
    have h6 := congrArg List.reverse hl
    simp only [List.reverse_append, List.reverse_reverse, List.reverse_cons,
      List.reverse_nil, List.nil_append, List.cons_append,
      List.singleton_append, List.cons.injEq, true_and] at h6
    rw [h6]
    rw [f2, gval_S s t p i0 t.length (le_refl _) hfn hsfx]

/-- Witness for `C2_theorem` on a concrete alignment instance with a
suffix clip. -/
theorem C2_witness :
    ∃ r, compute [67, 71] [71, 65] ⟨-5, -1, 2, -2, -5⟩ = some r ∧
      r.s_range1 = (2 : Int) ∧
      r.score = (Sf [67, 71] [71, 65] ⟨-5, -1, 2, -2, -5⟩ 2
        [71, 65].length).score ∧
      rescore ⟨-5, -1, 2, -2, -5⟩ r.moves = r.score :=
  C2_theorem [67, 71] [71, 65] ⟨-5, -1, 2, -2, -5⟩ 2 (by decide) (by decide)
    (by decide) (by decide) (by decide) (by decide)

/-- Counterexample to the unconditional accounting claim: with a
positive `gap_inititation_score` the cell value collects `gap_init`
at both transitions of an insert run, so the returned score `18`
differs from the independent re-scoring `13` of the returned moves. -/
theorem C2_counterexample :
    compute [1, 2, 2] [1] ⟨5, -1, 10, -100, -100⟩ =
      some ⟨18, 0, 3, 0, 1, [Moves.MATCH, Moves.INSERT, Moves.INSERT], 0, 0⟩ ∧
      rescore ⟨5, -1, 10, -100, -100⟩
        [Moves.MATCH, Moves.INSERT, Moves.INSERT] = 13 ∧
      (13 : Int) ≠ 18 := by
  decide

end SG
